import Mathlib

/-!
Verification development for the uncertainpy parameter handling and
run-scheduler / result-alignment pipeline.

The Python sources embedded here are `src/uncertainpy/parameters.py`
(`Parameter`, `Parameters`) and `src/uncertainpy/runmodel.py` (`RunModel`).
Scalars are modelled as `Int`, strings as Lean `String` or `List Char`,
Python dicts/OrderedDicts as association lists with insert-or-replace
semantics, and Python exceptions as an explicit error type.
-/

namespace Uncertainpy

/-! ## Association lists: the OrderedDict / dict model

`assocFind` is `d[k]` (returning `none` where Python raises `KeyError`);
`odInsert` is `d[k] = v`: it replaces the value in place if the key is
present (keeping its position, as both `dict` and `OrderedDict` do) and
appends at the end otherwise. -/

def assocFind {α : Type} : List (String × α) → String → Option α
  | [], _ => Option.none
  | (k', v) :: rest, k => if k' = k then some v else assocFind rest k

def odInsert {α : Type} : List (String × α) → String → α → List (String × α)
  | [], k, v => [(k, v)]
  | (k', v') :: rest, k, v =>
      if k' = k then (k, v) :: rest else (k', v') :: odInsert rest k v

theorem assocFind_odInsert_self {α : Type} (l : List (String × α)) (k : String) (v : α) :
    assocFind (odInsert l k v) k = some v := by
  induction l with
  | nil => simp [odInsert, assocFind]
  | cons hd tl ih =>
      obtain ⟨k', v'⟩ := hd
      by_cases h : k' = k
      · simp [odInsert, assocFind, h]
      · simp [odInsert, assocFind, h, ih]

theorem assocFind_odInsert_ne {α : Type} (l : List (String × α)) (k k' : String) (v : α)
    (h : k' ≠ k) : assocFind (odInsert l k v) k' = assocFind l k' := by
  have h' : k ≠ k' := Ne.symm h
  induction l with
  | nil => simp [odInsert, assocFind, h']
  | cons hd tl ih =>
      obtain ⟨k0, v0⟩ := hd
      by_cases h0 : k0 = k
      · subst h0
        simp [odInsert, assocFind, h']
      · simp only [odInsert, h0, if_false, assocFind]
        by_cases h1 : k0 = k'
        · simp [h1]
        · simp [h1, ih]

/-! ## parameters.py: `Parameter` and `Parameters`

Chaospy distributions are opaque to this code: the only operations the
embedded functions perform on them are the `isinstance(_, cp.Dist)` /
callable test in the `distribution` setter and the `is not None` test in
`get_from_uncertain`.  They are modelled by the concrete type `CpDist`. -/

inductive CpDist
  | uniform (a b : Int)
  | normal (mu sigma : Int)
  | other (tag : Nat)
deriving DecidableEq

/-- Argument accepted by the `Parameter.distribution` setter: `None`, a
Chaospy distribution, or a function returning a Chaospy distribution
(the function case always returns a `CpDist` here, so the setter's
`TypeError` branch for a non-distribution result is unreachable in the
model). -/
inductive DistSpec
  | nodist
  | dist (d : CpDist)
  | func (f : Int → CpDist)

structure Parameter where
  name : String
  value : Int
  distribution : Option CpDist
deriving DecidableEq

/-- The body of the `Parameter.distribution` property setter
(parameters.py lines 84-95): `None` stays `None`, a distribution is
stored as is, and a callable is applied to the parameter's value. -/
def setDistribution (value : Int) : DistSpec → Option CpDist
  | .nodist => Option.none
  | .dist d => some d
  | .func f => some (f value)

/-- `Parameter.__init__(name, value, distribution)`: stores name and value
and runs the distribution setter. -/
def Parameter.make (name : String) (value : Int) (spec : DistSpec) : Parameter :=
  { name := name, value := value, distribution := setDistribution value spec }

/-- One entry of the `parameterlist` argument of `Parameters.__init__`:
either an already-built `Parameter` instance or a raw
`[name, value, distribution]` triple. -/
inductive ParamSpec
  | obj (p : Parameter)
  | triple (name : String) (value : Int) (d : DistSpec)

structure Parameters where
  parameters : List (String × Parameter)

/-- `Parameters.__init__` (parameters.py lines 185-218): fold the
parameter list into the backing `OrderedDict`, keyed by name; a
`Parameter` instance is stored under its own name, a raw triple is passed
to the `Parameter` constructor. -/
def Parameters.ofList (l : List ParamSpec) : Parameters :=
  { parameters :=
      l.foldl (fun acc s =>
        match s with
        | .obj p => odInsert acc p.name p
        | .triple n v d => odInsert acc n (Parameter.make n v d)) [] }

/-- `Parameters.get_from_uncertain` inner loop (parameters.py lines
354-358): walk the stored parameters in storage order, keeping
`getattr(parameter, attribute)` for those whose distribution is not
`None`. -/
def getFromUncertainList {α : Type} (attr : Parameter → α) :
    List (String × Parameter) → List α
  | [] => []
  | (_, p) :: rest =>
      if p.distribution.isSome then attr p :: getFromUncertainList attr rest
      else getFromUncertainList attr rest

def Parameters.getFromUncertain {α : Type} (ps : Parameters) (attr : Parameter → α) :
    List α :=
  getFromUncertainList attr ps.parameters

/-- `Parameters.__iter__` (parameters.py lines 238-248): iterates over
`self.parameters.values()`, i.e. the stored `Parameter` objects, not the
name keys. -/
def Parameters.iterValues (ps : Parameters) : List Parameter :=
  ps.parameters.map Prod.snd

/-- Operand of the Python `in` test against a `Parameters` collection:
either a name string or a `Parameter` object. -/
inductive PyKey
  | str (s : String)
  | obj (p : Parameter)

/-- Membership test `x in parameters`.  `Parameters` subclasses
`collections.MutableMapping` and does not override `__contains__`, so the
inherited `Mapping.__contains__` is used: it attempts `self[x]`, i.e. a
lookup in the name-keyed backing dict, and returns `False` exactly when
that raises `KeyError`.  A name string that is stored is found; a
`Parameter` object is never a key of the string-keyed dict, so the lookup
always fails for it. -/
def Parameters.containsKey (ps : Parameters) : PyKey → Bool
  | .str k => (assocFind ps.parameters k).isSome
  | .obj _ => false

theorem getFromUncertainList_eq_filter {α : Type} (attr : Parameter → α)
    (l : List (String × Parameter)) :
    getFromUncertainList attr l =
      ((l.map Prod.snd).filter (fun p => p.distribution.isSome)).map attr := by
  induction l with
  | nil => rfl
  | cons hd tl ih =>
      obtain ⟨k, p⟩ := hd
      by_cases h : p.distribution.isSome
      · simp [getFromUncertainList, h, List.filter_cons, ih]
      · simp [getFromUncertainList, h, List.filter_cons, ih]

/-- **C5.** For every `Parameters` collection, `get_from_uncertain("name")`
returns exactly the names of the stored parameters whose distribution is
not `None`, in storage order; in particular for the parameter list
`[["a", 1, Uniform(0, 1)], ["b", 2, None]]` it returns `["a"]`. -/
theorem claim_C5 (ps : Parameters) :
    ps.getFromUncertain Parameter.name =
      ((ps.parameters.map Prod.snd).filter
        (fun p => p.distribution.isSome)).map Parameter.name ∧
    (Parameters.ofList
        [ParamSpec.triple "a" 1 (DistSpec.dist (CpDist.uniform 0 1)),
         ParamSpec.triple "b" 2 DistSpec.nodist]).getFromUncertain Parameter.name
      = ["a"] := by
  refine ⟨getFromUncertainList_eq_filter _ _, ?_⟩
  rfl

/-- **C6.** A `Parameters` collection built from raw
`[name, value, distribution]` triples and one built from the equivalent
`Parameter` objects produce identical `get_from_uncertain("name")`
output (same elements, same order). -/
theorem claim_C6 (ts : List (String × Int × DistSpec)) :
    (Parameters.ofList
        (ts.map (fun t => ParamSpec.triple t.1 t.2.1 t.2.2))).getFromUncertain
        Parameter.name =
      (Parameters.ofList
        (ts.map (fun t => ParamSpec.obj (Parameter.make t.1 t.2.1 t.2.2)))).getFromUncertain
        Parameter.name := by
  simp only [Parameters.ofList, Parameters.getFromUncertain, List.foldl_map]
  rfl

/-- **C9, counterexample.** The claim asserts that the mapping-derived
membership test `name in parameters` is `False` for every stored name.
On the collection built from `[["a", 1, Uniform(0, 1)]]` the membership
test for the stored name `"a"` is `True`, because `MutableMapping`
supplies `__contains__` via `__getitem__`, which succeeds on names. -/
theorem claim_C9_cex :
    ¬ ((Parameters.ofList
          [ParamSpec.triple "a" 1 (DistSpec.dist (CpDist.uniform 0 1))]).containsKey
        (PyKey.str "a") = false) := by
  decide

theorem mem_iterValues_of_assocFind (ps : Parameters) (k : String) (p : Parameter)
    (h : assocFind ps.parameters k = some p) : p ∈ ps.iterValues := by
  obtain ⟨l⟩ := ps
  simp only [Parameters.iterValues]
  induction l with
  | nil => simp [assocFind] at h
  | cons hd tl ih =>
      obtain ⟨k', v'⟩ := hd
      by_cases hk : k' = k
      · simp [assocFind, hk] at h
        simp [h]
      · simp only [assocFind, hk, if_false] at h
        simp [ih h]

/-- **C9, amended.** Iterating over a `Parameters` collection yields the
stored `Parameter` objects themselves rather than the name keys;
nevertheless the membership test `name in parameters` is `True` for every
stored name (it is inherited from `Mapping` and goes through
`__getitem__`, which succeeds on names), while membership of the stored
`Parameter` object itself is `False` (the object is not a key of the
string-keyed backing dict). -/
theorem claim_C9 (ps : Parameters) (k : String) (p : Parameter)
    (h : assocFind ps.parameters k = some p) :
    p ∈ ps.iterValues ∧
    ps.containsKey (PyKey.str k) = true ∧
    ps.containsKey (PyKey.obj p) = false := by
  refine ⟨mem_iterValues_of_assocFind ps k p h, ?_, rfl⟩
  simp [Parameters.containsKey, h]

/-- Witness for `claim_C9` at the collection `[["a", 1, Uniform(0, 1)]]`. -/
theorem claim_C9_witness :
    assocFind (Parameters.ofList
        [ParamSpec.triple "a" 1 (DistSpec.dist (CpDist.uniform 0 1))]).parameters "a"
      = some (Parameter.make "a" 1 (DistSpec.dist (CpDist.uniform 0 1))) ∧
    (Parameter.make "a" 1 (DistSpec.dist (CpDist.uniform 0 1))
        ∈ (Parameters.ofList
            [ParamSpec.triple "a" 1 (DistSpec.dist (CpDist.uniform 0 1))]).iterValues ∧
      (Parameters.ofList
          [ParamSpec.triple "a" 1 (DistSpec.dist (CpDist.uniform 0 1))]).containsKey
          (PyKey.str "a") = true ∧
      (Parameters.ofList
          [ParamSpec.triple "a" 1 (DistSpec.dist (CpDist.uniform 0 1))]).containsKey
          (PyKey.obj (Parameter.make "a" 1 (DistSpec.dist (CpDist.uniform 0 1)))) = false) :=
  ⟨by decide, claim_C9 _ "a" _ (by decide)⟩

/-! ## parameters.py: `Parameter.set_parameter_file`

`set_parameter_file(filename, value)` (parameters.py lines 99-117) runs,
over every line of the file, the substitution

  `re.sub(r"(\A|\b)(NAME)(\s*=\s*)((([+-]?\d+[.]?\d*)|([+-]?\d*[.]?\d+))([eE][+-]?\d+)*)($|\b)", r"\g<1>\g<2>\g<3>" + str(value), line)`

The pattern is embedded directly (not a generic regex engine): each
sub-pattern becomes a parser returning the list of possible remainders in
Python's backtracking preference order (greedy quantifiers longest
first, alternatives left to right), and a match takes the first remainder
whose follow-up zero-width test `($|\b)` succeeds.  The parameter name is
interpolated into the pattern verbatim; the model matches it literally,
which is faithful for names free of regex metacharacters (alphanumeric
names). -/

def isWordChar (c : Char) : Bool := c.isAlpha || c.isDigit || c = '_'

def isSpaceChar (c : Char) : Bool :=
  c = ' ' || c = '\t' || c = '\n' || c = '\x0b' || c = '\x0c' || c = '\r'

def isDigitChar (c : Char) : Bool := c.isDigit

def isSignChar (c : Char) : Bool := c = '+' || c = '-'

def isDotChar (c : Char) : Bool := c = '.'

def wordOpt : Option Char → Bool
  | Option.none => false
  | some c => isWordChar c

/-- The zero-width `\b` test between two adjacent positions: exactly one
side is a word character (a missing side counts as non-word). -/
def boundaryB (prev next : Option Char) : Bool := wordOpt prev != wordOpt next

/-- Greedy optional single character `X?`: try consuming it first. -/
def optCharCands (p : Char → Bool) : List Char → List (List Char)
  | [] => [[]]
  | c :: rest => if p c then [rest, c :: rest] else [c :: rest]

def digitRunLen (s : List Char) : Nat := (s.takeWhile isDigitChar).length

/-- Greedy `\d*`: remainders after consuming k, k-1, ..., 0 digits. -/
def digitsStarCands (s : List Char) : List (List Char) :=
  (List.range (digitRunLen s + 1)).map (fun i => s.drop (digitRunLen s - i))

/-- Greedy `\d+`: remainders after consuming k, k-1, ..., 1 digits
(no candidate when no digit is present). -/
def digitsPlusCands (s : List Char) : List (List Char) :=
  (List.range (digitRunLen s)).map (fun i => s.drop (digitRunLen s - i))

/-- `[+-]?\d+[.]?\d*` (first alternative of the number group). -/
def numAlt1 (s : List Char) : List (List Char) :=
  (((optCharCands isSignChar s).flatMap digitsPlusCands).flatMap
    (optCharCands isDotChar)).flatMap digitsStarCands

/-- `[+-]?\d*[.]?\d+` (second alternative of the number group). -/
def numAlt2 (s : List Char) : List (List Char) :=
  (((optCharCands isSignChar s).flatMap digitsStarCands).flatMap
    (optCharCands isDotChar)).flatMap digitsPlusCands

def numBaseCands (s : List Char) : List (List Char) := numAlt1 s ++ numAlt2 s

/-- One iteration `[eE][+-]?\d+` of the exponent group. -/
def expOnceCands : List Char → List (List Char)
  | [] => []
  | c :: rest =>
      if c = 'e' || c = 'E' then (optCharCands isSignChar rest).flatMap digitsPlusCands
      else []

/-- Greedy `([eE][+-]?\d+)*`; each iteration consumes at least two
characters, so fuel equal to the remaining length is enough. -/
def expStarF : Nat → List Char → List (List Char)
  | 0, s => [s]
  | fuel + 1, s => ((expOnceCands s).flatMap (expStarF fuel)) ++ [s]

/-- All ways to match the full number group 4, in backtracking
preference order. -/
def numberCands (s : List Char) : List (List Char) :=
  (numBaseCands s).flatMap (fun r => expStarF r.length r)

/-- Characters consumed between `s` and a remainder `r` of `s`. -/
def charsConsumed (s r : List Char) : List Char := s.take (s.length - r.length)

/-- The trailing `($|\b)` test.  `$` matches at the end of the string or
just before a final newline (`fileinput` hands full lines to the
substitution, so a newline can only be last). -/
def dollarEnd (r : List Char) : Bool := r = [] || r = ['\n']

/-- Group 4: first number parse whose end position passes `($|\b)`. -/
def numberMatch (s : List Char) : Option (List Char) :=
  (numberCands s).find?
    (fun r => dollarEnd r || boundaryB (charsConsumed s r).getLast? r.head?)

/-- Literal match of `p` at the front of `s`, returning the remainder. -/
def matchesAt : List Char → List Char → Option (List Char)
  | [], s => some s
  | _, [] => Option.none
  | p :: ps, c :: rest => if c = p then matchesAt ps rest else Option.none

/-- Group 3, `\s*=\s*`: greedy spaces, `=`, greedy spaces.  No
backtracking is possible here because `=` is not a space character.
Returns the consumed span and the remainder. -/
def eqSpanParse (s : List Char) : Option (List Char × List Char) :=
  let w1 := s.takeWhile isSpaceChar
  match s.drop w1.length with
  | [] => Option.none
  | c :: r2 =>
      if c = '=' then
        let w2 := r2.takeWhile isSpaceChar
        some (w1 ++ '=' :: w2, r2.drop w2.length)
      else Option.none

/-- Try the whole pattern at the current position.  `prev` is the
character before the position (`none` at the start of the line, where
`\A` applies).  On success returns the text of groups 1-3 (which the
replacement template `\g<1>\g<2>\g<3>` preserves) and the remainder after
the full match. -/
def matchAt (name : List Char) (prev : Option Char) (s : List Char) :
    Option (List Char × List Char) :=
  if prev.isNone || boundaryB prev s.head? then
    match matchesAt name s with
    | Option.none => Option.none
    | some s1 =>
        match eqSpanParse s1 with
        | Option.none => Option.none
        | some (span, s2) =>
            match numberMatch s2 with
            | Option.none => Option.none
            | some r => some (name ++ span, r)
  else Option.none

/-- `pattern.sub(replacement, line)`: scan left to right for
non-overlapping matches, replacing group 4 by `str(value)` and keeping
groups 1-3; matching continues on the original text after each match.
Every match consumes at least one character, so fuel bounded by the
length of the line suffices. -/
def subScanF (name v : List Char) : Nat → Option Char → List Char → List Char
  | 0, _, s => s
  | fuel + 1, prev, s =>
      match matchAt name prev s with
      | some (g, r) => g ++ v ++ subScanF name v fuel (charsConsumed s r).getLast? r
      | Option.none =>
          match s with
          | [] => []
          | c :: rest => c :: subScanF name v fuel (some c) rest

def subLine (name v s : List Char) : List Char :=
  subScanF name v (s.length + 1) Option.none s

/-- Split into lines, each keeping its trailing newline, as
`fileinput.input` yields them. -/
def splitLinesKeepAux : List Char → List Char → List (List Char)
  | acc, [] => if acc = [] then [] else [acc.reverse]
  | acc, c :: rest =>
      if c = '\n' then (acc.reverse ++ ['\n']) :: splitLinesKeepAux [] rest
      else splitLinesKeepAux (c :: acc) rest

/-- `Parameter.set_parameter_file`, as a function from file content to
file content: apply the substitution to every line.  `name` is the
parameter's name and `v` is `str(value)`. -/
def set_parameter_file (name v content : List Char) : List Char :=
  ((splitLinesKeepAux [] content).map (subLine name v)).flatten

/-! ### Well-delimited assignment files

The family of file contents on which the substitution is provably
idempotent: text made of whole-word `name = number` assignments whose
numbers follow the full grammar of the pattern's group 4 (optional sign,
integer or float mantissa, exponent groups) and are followed by
end-of-line or whitespace, with arbitrary `\s*=\s*` spacing, any number
of assignments per line, any number of lines, and surrounding text that
never mentions the name (no character of the surrounding text equals the
name's first character). -/

/-- Drop one leading `+`/`-` if present (the optional sign of the
number grammar). -/
def dropSignOpt : List Char → List Char
  | [] => []
  | c :: r => if isSignChar c then r else c :: r

def signWF (sgn : List Char) : Bool :=
  sgn = [] || sgn = ['+'] || sgn = ['-']

/-- The optional fractional part: empty, or a dot followed by at least
one digit (so that the numeral never ends in a bare dot). -/
def dotWF (dot : List Char) : Bool :=
  match dot with
  | [] => true
  | c :: d2 => c = '.' && !d2.isEmpty && d2.all isDigitChar

/-- One exponent group `[eE][+-]?\d+`, as flat characters. -/
def expGroupWF (g : List Char) : Bool :=
  match g with
  | [] => false
  | c :: r =>
      (c = 'e' || c = 'E') && !(dropSignOpt r).isEmpty &&
        (dropSignOpt r).all isDigitChar

/-- A numeral of the number group's grammar, split into sign, integer
digits, fractional part and exponent groups; it must contain a digit
before or after the dot, and always ends in a digit. -/
def numWF (sgn d1 dot : List Char) (exps : List (List Char)) : Bool :=
  signWF sgn && d1.all isDigitChar && dotWF dot &&
    (!d1.isEmpty || !dot.isEmpty) && exps.all expGroupWF

def numeralChars (sgn d1 dot : List Char) (exps : List (List Char)) : List Char :=
  sgn ++ d1 ++ dot ++ exps.flatten

def lastNonWord (s : List Char) : Bool :=
  match s.getLast? with
  | Option.none => false
  | some c => !isWordChar c

def noNewline (s : List Char) : Bool := s.all (fun c => !(c == '\n'))

/-- One whole-word assignment `name<ws1>=<ws2><number><seg>`: the spacing
around `=`, the number (as grammar components) and the trailing text up
to the next assignment (or the end of the line). -/
structure Assign where
  ws1 : List Char
  ws2 : List Char
  sgn : List Char
  d1 : List Char
  dot : List Char
  exps : List (List Char)
  seg : List Char

def Assign.num (a : Assign) : List Char := numeralChars a.sgn a.d1 a.dot a.exps

def Assign.render (name : List Char) (a : Assign) : List Char :=
  name ++ a.ws1 ++ '=' :: a.ws2 ++ a.num ++ a.seg

/-- The assignment after one substitution pass: the number replaced by
`str(value)`, everything else identical. -/
def Assign.renderWith (name v : List Char) (a : Assign) : List Char :=
  name ++ a.ws1 ++ '=' :: a.ws2 ++ v ++ a.seg

/-- Well-formedness of one assignment: spaces are space-class and
newline-free, the number follows the grammar, and the trailing text does
not mention the name and starts with whitespace (or is empty). -/
def Assign.wfB (name : List Char) (a : Assign) : Bool :=
  a.ws1.all isSpaceChar && a.ws2.all isSpaceChar &&
  noNewline a.ws1 && noNewline a.ws2 && noNewline a.seg &&
  numWF a.sgn a.d1 a.dot a.exps &&
  a.seg.all (fun c => !(name.head? == some c)) &&
  (a.seg.take 1).all isSpaceChar

/-- A chain of assignments on one line: each is well formed, and each
assignment followed by another ends its trailing text with a non-word
character (whitespace qualifies), restoring the word boundary before the
next occurrence of the name. -/
def assignsWF (name : List Char) : List Assign → Bool
  | [] => true
  | a :: rest =>
      Assign.wfB name a && (rest.isEmpty || lastNonWord a.seg) &&
        assignsWF name rest

def renderAssigns (name : List Char) (occs : List Assign) : List Char :=
  (occs.map (Assign.render name)).flatten

def renderAssignsWith (name v : List Char) (occs : List Assign) : List Char :=
  (occs.map (Assign.renderWith name v)).flatten

/-- One line of a well-delimited file: leading text, a chain of
assignments, and whether the line ends with a newline. -/
structure WfLine where
  seg0 : List Char
  occs : List Assign
  newline : Bool

def WfLine.render (name : List Char) (l : WfLine) : List Char :=
  l.seg0 ++ renderAssigns name l.occs ++ (if l.newline then ['\n'] else [])

def WfLine.renderWith (name v : List Char) (l : WfLine) : List Char :=
  l.seg0 ++ renderAssignsWith name v l.occs ++ (if l.newline then ['\n'] else [])

/-- Well-formedness of one line: the leading text is newline-free, does
not mention the name, and (when assignments follow) ends with a non-word
character or is empty; the assignments form a well-formed chain; and the
line is not completely empty unless it is a bare newline. -/
def WfLine.wfB (name : List Char) (l : WfLine) : Bool :=
  noNewline l.seg0 &&
  l.seg0.all (fun c => !(name.head? == some c)) &&
  (l.occs.isEmpty || l.seg0.isEmpty || lastNonWord l.seg0) &&
  assignsWF name l.occs &&
  (l.newline || !l.seg0.isEmpty || !l.occs.isEmpty)

/-- The assignment with its number replaced by the components of the
written value (what a substitution pass leaves behind). -/
def Assign.withNum (vsgn vd1 vdot : List Char) (vexps : List (List Char))
    (a : Assign) : Assign :=
  { a with sgn := vsgn, d1 := vd1, dot := vdot, exps := vexps }

def WfLine.withNum (vsgn vd1 vdot : List Char) (vexps : List (List Char))
    (l : WfLine) : WfLine :=
  { l with occs := l.occs.map (Assign.withNum vsgn vd1 vdot vexps) }

/-- The previous-character context after scanning past `seg`. -/
def lastOption (prev : Option Char) (seg : List Char) : Option Char :=
  match seg.getLast? with
  | Option.none => prev
  | some c => some c

/-- **C7, counterexample.** The claim asserts that applying
`set_parameter_file` twice with the same value leaves the file
byte-identical to a single application, for every file content.  On the
file `a = 5e5.25` with name `a` and value `3`, the first application
matches the number `5e5` (the trailing `($|\b)` cuts the greedy number
short at the dot) and produces `a = 3.25`; the second application then
matches `3.25` as a whole and produces `a = 3`.  The two results
differ. -/
theorem claim_C7_cex :
    set_parameter_file "a".data "3".data
        (set_parameter_file "a".data "3".data "a = 5e5.25".data) ≠
      set_parameter_file "a".data "3".data "a = 5e5.25".data := by
  decide

/-! ### Character-class facts used by the substitution proofs -/

theorem space_char_class (c : Char) (h : isSpaceChar c = true) :
    isDigitChar c = false ∧ isDotChar c = false ∧ isWordChar c = false ∧
      (c = 'e' || c = 'E') = false ∧ isSignChar c = false := by
  simp only [isSpaceChar, Bool.or_eq_true, decide_eq_true_eq] at h
  rcases h with ((((h | h) | h) | h) | h) | h <;> subst h <;> decide

theorem digit_char_class (c : Char) (h : isDigitChar c = true) :
    isSignChar c = false ∧ isDotChar c = false ∧ isSpaceChar c = false ∧
      isWordChar c = true ∧ c ≠ '\n' := by
  refine ⟨?_, ?_, ?_, ?_, ?_⟩
  · cases hs : isSignChar c
    · rfl
    · exfalso
      simp only [isSignChar, Bool.or_eq_true, decide_eq_true_eq] at hs
      rcases hs with h1 | h1 <;> subst h1 <;> exact absurd h (by decide)
  · cases hs : isDotChar c
    · rfl
    · exfalso
      simp only [isDotChar, decide_eq_true_eq] at hs
      subst hs
      exact absurd h (by decide)
  · cases hs : isSpaceChar c
    · rfl
    · exact absurd h (by simp [(space_char_class c hs).1])
  · simp only [isWordChar, isDigitChar] at h ⊢
    simp [h]
  · intro e
    subst e
    exact absurd h (by decide)

theorem alpha_char_ne_newline (c : Char) (h : c.isAlpha = true) : c ≠ '\n' := by
  intro e
  subst e
  exact absurd h (by decide)

/-! ### List computations for the substitution -/

theorem takeWhile_append_all (p : Char → Bool) (d t : List Char)
    (h : ∀ c ∈ d, p c = true) :
    (d ++ t).takeWhile p = d ++ t.takeWhile p := by
  induction d with
  | nil => simp
  | cons c d' ih =>
      have hc := h c (by simp)
      simp [List.takeWhile_cons, hc, ih (fun x hx => h x (by simp [hx]))]

theorem takeWhile_head_false (p : Char → Bool) (t : List Char)
    (h : ∀ c ∈ t.take 1, p c = false) : t.takeWhile p = [] := by
  cases t with
  | nil => rfl
  | cons c r =>
      have hc := h c (by simp)
      simp [List.takeWhile_cons, hc]

theorem digitRunLen_append (d t : List Char) (hd : ∀ c ∈ d, isDigitChar c = true)
    (ht : ∀ c ∈ t.take 1, isDigitChar c = false) :
    digitRunLen (d ++ t) = d.length := by
  unfold digitRunLen
  rw [takeWhile_append_all _ _ _ hd, takeWhile_head_false _ _ ht]
  simp

theorem matchesAt_append (p t : List Char) : matchesAt p (p ++ t) = some t := by
  induction p with
  | nil => simp [matchesAt]
  | cons c p' ih => simp [matchesAt, ih]

theorem optCharCands_head_false (p : Char → Bool) (t : List Char)
    (h : ∀ c ∈ t.take 1, p c = false) : optCharCands p t = [t] := by
  cases t with
  | nil => rfl
  | cons c r =>
      have hc := h c (by simp)
      simp [optCharCands, hc]

theorem digitsStarCands_head_false (t : List Char)
    (h : ∀ c ∈ t.take 1, isDigitChar c = false) : digitsStarCands t = [t] := by
  unfold digitsStarCands digitRunLen
  rw [takeWhile_head_false _ _ h]
  simp

theorem digitsPlusCands_append (d t : List Char) (hd : d ≠ [])
    (hdd : ∀ c ∈ d, isDigitChar c = true)
    (ht : ∀ c ∈ t.take 1, isDigitChar c = false) :
    ∃ rest, digitsPlusCands (d ++ t) = t :: rest := by
  unfold digitsPlusCands
  rw [digitRunLen_append d t hdd ht]
  obtain ⟨m, hm⟩ : ∃ m, d.length = m + 1 := by
    cases d with
    | nil => exact absurd rfl hd
    | cons c r => exact ⟨r.length, by simp⟩
  rw [hm, List.range_succ_eq_map]
  refine ⟨(List.map Nat.succ (List.range m)).map
    (fun i => (d ++ t).drop (m + 1 - i)), ?_⟩
  simp only [List.map_cons, Nat.sub_zero]
  rw [← hm, List.drop_left]

theorem expStarF_no_iter (t : List Char) (h : expOnceCands t = []) (fuel : Nat) :
    expStarF fuel t = [t] := by
  cases fuel with
  | zero => rfl
  | succ n => simp [expStarF, h]

theorem expOnceCands_head_false (t : List Char)
    (h : ∀ c ∈ t.take 1, (c = 'e' || c = 'E') = false) :
    expOnceCands t = [] := by
  cases t with
  | nil => rfl
  | cons c r =>
      have hc := h c (by simp)
      simp [expOnceCands, hc]

/-- The literal ` = ` chunk of a well-formed `name = number` assignment. -/
def eqChunk : List Char := [' ', '=', ' ']

theorem getLast?_of_ne_nil (d : List Char) (hd : d ≠ []) :
    ∃ cl, d.getLast? = some cl ∧ cl ∈ d :=
  ⟨d.getLast hd, List.getLast?_eq_getLast d hd, List.getLast_mem hd⟩

theorem numberMatch_append (d t : List Char) (hd : d ≠ [])
    (hdd : ∀ c ∈ d, isDigitChar c = true)
    (hsp : ∀ c ∈ t.take 1, isSpaceChar c = true) :
    numberMatch (d ++ t) = some t := by
  have ht_digit : ∀ c ∈ t.take 1, isDigitChar c = false :=
    fun c hc => (space_char_class c (hsp c hc)).1
  have ht_dot : ∀ c ∈ t.take 1, isDotChar c = false :=
    fun c hc => (space_char_class c (hsp c hc)).2.1
  have ht_e : ∀ c ∈ t.take 1, (c = 'e' || c = 'E') = false :=
    fun c hc => (space_char_class c (hsp c hc)).2.2.2.1
  obtain ⟨c0, d0, hd0⟩ : ∃ c0 d0, d = c0 :: d0 := by
    cases d with
    | nil => exact absurd rfl hd
    | cons c r => exact ⟨_, _, rfl⟩
  have hc0 : isDigitChar c0 = true := hdd c0 (by simp [hd0])
  have hsign : optCharCands isSignChar (d ++ t) = [d ++ t] := by
    rw [hd0]
    simp [optCharCands, (digit_char_class c0 hc0).1]
  obtain ⟨r1, hr1⟩ := digitsPlusCands_append d t hd hdd ht_digit
  have hdot : optCharCands isDotChar t = [t] := optCharCands_head_false _ _ ht_dot
  have hstar : digitsStarCands t = [t] := digitsStarCands_head_false _ ht_digit
  have hexp : expOnceCands t = [] := expOnceCands_head_false _ ht_e
  obtain ⟨rest1, halt1⟩ : ∃ rest, numAlt1 (d ++ t) = t :: rest := by
    unfold numAlt1
    rw [hsign]
    simp only [List.flatMap_cons, List.flatMap_nil, List.append_nil]
    rw [hr1]
    simp only [List.flatMap_cons]
    rw [hdot]
    simp only [List.singleton_append, List.flatMap_cons]
    rw [hstar]
    simp only [List.singleton_append]
    exact ⟨_, rfl⟩
  obtain ⟨restC, hcands⟩ : ∃ rest, numberCands (d ++ t) = t :: rest := by
    unfold numberCands numBaseCands
    rw [halt1]
    simp only [List.cons_append, List.flatMap_cons]
    rw [expStarF_no_iter t hexp]
    simp only [List.singleton_append]
    exact ⟨_, rfl⟩
  have hpred : (dollarEnd t ||
      boundaryB (charsConsumed (d ++ t) t).getLast? t.head?) = true := by
    cases t with
    | nil => rfl
    | cons ct rt =>
        have hsp' : isSpaceChar ct = true := hsp ct (by simp)
        have hcc : charsConsumed (d ++ (ct :: rt)) (ct :: rt) = d := by
          unfold charsConsumed
          rw [show (d ++ (ct :: rt)).length - (ct :: rt).length = d.length by
                simp [List.length_append]]
          exact List.take_left d (ct :: rt)
        obtain ⟨cl, hcl, hclm⟩ := getLast?_of_ne_nil d hd
        have hclw : isWordChar cl = true := (digit_char_class cl (hdd cl hclm)).2.2.2.1
        rw [hcc, hcl]
        simp [boundaryB, wordOpt, hclw, (space_char_class ct hsp').2.2.1]
  unfold numberMatch
  rw [hcands]
  simp [List.find?, hpred]

theorem eqSpanParse_eqChunk (x : List Char)
    (hx : ∀ c ∈ x.take 1, isSpaceChar c = false) :
    eqSpanParse (eqChunk ++ x) = some (eqChunk, x) := by
  have h1 : (eqChunk ++ x).takeWhile isSpaceChar = [' '] := by
    show (' ' :: '=' :: ' ' :: x).takeWhile isSpaceChar = [' ']
    simp [List.takeWhile_cons, isSpaceChar]
  have h2 : (' ' :: x).takeWhile isSpaceChar = [' '] := by
    simp [List.takeWhile_cons, isSpaceChar, takeWhile_head_false _ _ hx]
  simp only [eqSpanParse, h1]
  show (match (' ' :: '=' :: ' ' :: x).drop 1 with
    | [] => Option.none
    | c :: r2 =>
        if c = '=' then
          let w2 := r2.takeWhile isSpaceChar
          some ([' '] ++ '=' :: w2, r2.drop w2.length)
        else Option.none) = some (eqChunk, x)
  simp only [List.drop_succ_cons, List.drop_zero, if_pos rfl, h2]
  show some ([' '] ++ '=' :: [' '], (' ' :: x).drop 1) = some (eqChunk, x)
  simp [eqChunk]

theorem matchAt_wellformed (name : List Char) (d t : List Char) (hd : d ≠ [])
    (hdd : ∀ c ∈ d, isDigitChar c = true)
    (hsp : ∀ c ∈ t.take 1, isSpaceChar c = true) :
    matchAt name Option.none (name ++ eqChunk ++ d ++ t) =
      some (name ++ eqChunk, t) := by
  have hx : ∀ c ∈ (d ++ t).take 1, isSpaceChar c = false := by
    obtain ⟨c0, d0, hd0⟩ : ∃ c0 d0, d = c0 :: d0 := by
      cases d with
      | nil => exact absurd rfl hd
      | cons c r => exact ⟨_, _, rfl⟩
    subst hd0
    intro c hc
    simp only [List.cons_append, List.take_succ_cons, List.take_zero,
      List.mem_singleton] at hc
    subst hc
    exact (digit_char_class c (hdd c (by simp))).2.2.1
  unfold matchAt
  simp only [Option.isNone_none, Bool.true_or, if_true]
  rw [show name ++ eqChunk ++ d ++ t = name ++ (eqChunk ++ (d ++ t)) by
        simp [List.append_assoc]]
  simp only [matchesAt_append, eqSpanParse_eqChunk (d ++ t) hx,
    numberMatch_append d t hd hdd hsp]

theorem matchAt_none_of_head (name : List Char) (hn : name ≠ [])
    (prev : Option Char) (t : List Char)
    (h : ∀ c ∈ t.take 1, ¬ name.head? = some c) :
    matchAt name prev t = Option.none := by
  obtain ⟨h0, nr, hname⟩ : ∃ h0 nr, name = h0 :: nr := by
    cases name with
    | nil => exact absurd rfl hn
    | cons c r => exact ⟨_, _, rfl⟩
  subst hname
  have hm : matchesAt (h0 :: nr) t = Option.none := by
    cases t with
    | nil => rfl
    | cons c r =>
        have hc : ¬ (h0 :: nr).head? = some c := h c (by simp)
        have : c ≠ h0 := by
          intro e
          exact hc (by simp [e])
        simp [matchesAt, this]
  unfold matchAt
  by_cases hb : (prev.isNone || boundaryB prev t.head?) = true
  · simp [hb, hm]
  · simp [hb]

theorem subScanF_no_match (name v : List Char) (hn : name ≠ []) :
    ∀ (t : List Char), (∀ c ∈ t, ¬ name.head? = some c) →
      ∀ (fuel : Nat) (prev : Option Char), subScanF name v fuel prev t = t := by
  intro t
  induction t with
  | nil =>
      intro _ fuel prev
      cases fuel with
      | zero => rfl
      | succ n => simp [subScanF, matchAt_none_of_head name hn prev [] (by simp)]
  | cons c r ih =>
      intro hns fuel prev
      cases fuel with
      | zero => rfl
      | succ n =>
          have hm := matchAt_none_of_head name hn prev (c :: r)
            (fun x hx => hns x (by
              simp only [List.take_succ_cons, List.take_zero, List.mem_singleton] at hx
              simp [hx]))
          simp only [subScanF, hm]
          exact congrArg (c :: ·) (ih (fun x hx => hns x (by simp [hx])) n (some c))

theorem subLine_wellformed (name v d t : List Char) (hn : name ≠ [])
    (hd : d ≠ []) (hdd : ∀ c ∈ d, isDigitChar c = true)
    (hsp : ∀ c ∈ t.take 1, isSpaceChar c = true)
    (hns : ∀ c ∈ t, ¬ name.head? = some c) :
    subLine name v (name ++ eqChunk ++ d ++ t) = name ++ eqChunk ++ v ++ t := by
  unfold subLine
  simp only [subScanF, matchAt_wellformed name d t hd hdd hsp,
    subScanF_no_match name v hn t hns]

theorem splitLinesKeepAux_no_newline (s : List Char) :
    ∀ acc : List Char, (∀ c ∈ s, c ≠ '\n') → (acc ≠ [] ∨ s ≠ []) →
      splitLinesKeepAux acc s = [acc.reverse ++ s] := by
  induction s with
  | nil =>
      intro acc _ hne
      rcases hne with h | h
      · simp [splitLinesKeepAux, h]
      · exact absurd rfl h
  | cons c r ih =>
      intro acc hs _
      have hc : ¬ c = '\n' := hs c (by simp)
      simp only [splitLinesKeepAux, if_neg hc]
      rw [ih (c :: acc) (fun x hx => hs x (by simp [hx])) (Or.inl (by simp))]
      simp

/-! ### The greedy parse of a grammar numeral -/

theorem digitsPlusCands_eq_nil (t : List Char)
    (h : ∀ c ∈ t.take 1, isDigitChar c = false) : digitsPlusCands t = [] := by
  unfold digitsPlusCands digitRunLen
  rw [takeWhile_head_false _ _ h]
  rfl

theorem digitsStarCands_append (d t : List Char)
    (hdd : ∀ c ∈ d, isDigitChar c = true)
    (ht : ∀ c ∈ t.take 1, isDigitChar c = false) :
    ∃ j, digitsStarCands (d ++ t) = t :: j := by
  unfold digitsStarCands
  rw [digitRunLen_append d t hdd ht, List.range_succ_eq_map]
  refine ⟨(List.map Nat.succ (List.range d.length)).map
    (fun i => (d ++ t).drop (d.length - i)), ?_⟩
  simp only [List.map_cons, Nat.sub_zero]
  rw [List.drop_left]

theorem optSignCands_append (sgn r : List Char)
    (hs : signWF sgn = true)
    (hr : ∀ c ∈ r.take 1, isSignChar c = false) :
    ∃ j, optCharCands isSignChar (sgn ++ r) = r :: j := by
  simp only [signWF, Bool.or_eq_true, decide_eq_true_eq] at hs
  rcases hs with (h | h) | h <;> subst h
  · cases r with
    | nil => exact ⟨[], rfl⟩
    | cons c rr =>
        have hc := hr c (by simp)
        exact ⟨[], by simp [optCharCands, hc]⟩
  · exact ⟨[('+' :: r)], by simp [optCharCands, isSignChar]⟩
  · exact ⟨[('-' :: r)], by simp [optCharCands, isSignChar]⟩

theorem dropSignOpt_decomp (r : List Char)
    (h1 : (dropSignOpt r).isEmpty = false) :
    ∃ sgn, signWF sgn = true ∧ r = sgn ++ dropSignOpt r := by
  cases r with
  | nil => simp [dropSignOpt] at h1
  | cons c r' =>
      by_cases hc : isSignChar c = true
      · refine ⟨[c], ?_, ?_⟩
        · simp only [isSignChar, Bool.or_eq_true, decide_eq_true_eq] at hc
          rcases hc with h | h <;> subst h <;> decide
        · simp [dropSignOpt, hc]
      · have hc' : isSignChar c = false := by
          cases hcc : isSignChar c
          · rfl
          · exact absurd hcc hc
        refine ⟨[], by decide, ?_⟩
        simp [dropSignOpt, hc']

theorem expGroupWF_decomp (g : List Char) (h : expGroupWF g = true) :
    ∃ ec sg dg, g = ec :: (sg ++ dg) ∧ (ec = 'e' ∨ ec = 'E') ∧
      signWF sg = true ∧ dg ≠ [] ∧ (∀ c ∈ dg, isDigitChar c = true) := by
  cases g with
  | nil => simp [expGroupWF] at h
  | cons c r =>
      simp only [expGroupWF, Bool.and_eq_true, Bool.or_eq_true, Bool.not_eq_true',
        decide_eq_true_eq, List.all_eq_true] at h
      obtain ⟨⟨hce, hne⟩, hdg⟩ := h
      obtain ⟨sg, hsg, hr⟩ := dropSignOpt_decomp r hne
      refine ⟨c, sg, dropSignOpt r, by rw [← hr], hce, hsg, ?_, ?_⟩
      · intro e
        rw [e] at hne
        simp at hne
      · intro x hx
        exact hdg x hx

theorem exps_suffix_head (exps : List (List Char)) (suffix : List Char)
    (hg : ∀ g ∈ exps, expGroupWF g = true)
    (hsuf : ∀ c ∈ suffix.take 1, isSpaceChar c = true) :
    ∀ c ∈ (exps.flatten ++ suffix).take 1,
      (c = 'e' ∨ c = 'E') ∨ isSpaceChar c = true := by
  cases exps with
  | nil =>
      simp only [List.flatten_nil, List.nil_append]
      intro c hc
      exact Or.inr (hsuf c hc)
  | cons g gs =>
      intro c hc
      obtain ⟨ec, sg, dg, hgeq, hec, -, -, -⟩ := expGroupWF_decomp g (hg g (by simp))
      subst hgeq
      simp only [List.flatten_cons, List.cons_append, List.append_assoc,
        List.take_succ_cons, List.take_zero, List.mem_singleton] at hc
      subst hc
      exact Or.inl hec

theorem exps_suffix_head_classes (exps : List (List Char)) (suffix : List Char)
    (hg : ∀ g ∈ exps, expGroupWF g = true)
    (hsuf : ∀ c ∈ suffix.take 1, isSpaceChar c = true) :
    ∀ c ∈ (exps.flatten ++ suffix).take 1,
      isDigitChar c = false ∧ isDotChar c = false ∧ isSignChar c = false := by
  intro c hc
  rcases exps_suffix_head exps suffix hg hsuf c hc with (h | h) | h
  · subst h; exact ⟨by decide, by decide, by decide⟩
  · subst h; exact ⟨by decide, by decide, by decide⟩
  · exact ⟨(space_char_class c h).1, (space_char_class c h).2.1,
      (space_char_class c h).2.2.2.2⟩

theorem numWF_parts (sgn d1 dot : List Char) (exps : List (List Char))
    (h : numWF sgn d1 dot exps = true) :
    signWF sgn = true ∧ (∀ c ∈ d1, isDigitChar c = true) ∧ dotWF dot = true ∧
      (d1 ≠ [] ∨ dot ≠ []) ∧ (∀ g ∈ exps, expGroupWF g = true) := by
  simp only [numWF, Bool.and_eq_true, Bool.or_eq_true, Bool.not_eq_true',
    List.all_eq_true, List.isEmpty_eq_false] at h
  obtain ⟨⟨⟨⟨h1, h2⟩, h3⟩, h4⟩, h5⟩ := h
  exact ⟨h1, h2, h3, h4, h5⟩

theorem dotWF_decomp (dot : List Char) (h : dotWF dot = true) :
    dot = [] ∨ ∃ d2, dot = '.' :: d2 ∧ d2 ≠ [] ∧ ∀ c ∈ d2, isDigitChar c = true := by
  cases dot with
  | nil => exact Or.inl rfl
  | cons c d2 =>
      right
      simp only [dotWF, Bool.and_eq_true, decide_eq_true_eq, Bool.not_eq_true',
        List.all_eq_true, List.isEmpty_eq_false] at h
      obtain ⟨⟨hc, hne⟩, hall⟩ := h
      subst hc
      exact ⟨d2, rfl, hne, hall⟩

theorem numeral_ne_nil (sgn d1 dot : List Char) (exps : List (List Char))
    (h : numWF sgn d1 dot exps = true) : numeralChars sgn d1 dot exps ≠ [] := by
  obtain ⟨-, -, -, hmant, -⟩ := numWF_parts _ _ _ _ h
  unfold numeralChars
  intro he
  rcases hmant with h1 | h1
  · exact h1 (List.append_eq_nil.mp (List.append_eq_nil.mp
      (List.append_eq_nil.mp he).1).1).2
  · exact h1 (List.append_eq_nil.mp (List.append_eq_nil.mp he).1).2

theorem numeral_getLast_digit (sgn d1 dot : List Char) (exps : List (List Char))
    (h : numWF sgn d1 dot exps = true) :
    ∃ c, (numeralChars sgn d1 dot exps).getLast? = some c ∧ isDigitChar c = true := by
  obtain ⟨-, hd1, hdot, hmant, hexps⟩ := numWF_parts _ _ _ _ h
  unfold numeralChars
  rcases List.eq_nil_or_concat exps with he | ⟨init, g, he⟩
  · subst he
    simp only [List.flatten_nil, List.append_nil]
    rcases dotWF_decomp dot hdot with hd | ⟨d2, rfl, hd2ne, hd2⟩
    · subst hd
      have hd1ne : d1 ≠ [] := by
        rcases hmant with h1 | h1
        · exact h1
        · exact absurd rfl h1
      obtain ⟨c, hc, hcm⟩ := getLast?_of_ne_nil d1 hd1ne
      rw [List.append_nil, List.getLast?_append_of_ne_nil _ hd1ne, hc]
      exact ⟨c, rfl, hd1 c hcm⟩
    · obtain ⟨c, hc, hcm⟩ := getLast?_of_ne_nil d2 hd2ne
      rw [List.append_assoc, List.getLast?_append_of_ne_nil _ (by simp),
        show ('.' :: d2 : List Char) = ['.'] ++ d2 from rfl,
        ← List.append_assoc, List.getLast?_append_of_ne_nil _ hd2ne, hc]
      exact ⟨c, rfl, hd2 c hcm⟩
  · rw [List.concat_eq_append] at he
    subst he
    obtain ⟨ec, sg, dg, hgeq, -, -, hdgne, hdg⟩ :=
      expGroupWF_decomp g (hexps g (by simp))
    obtain ⟨c, hc, hcm⟩ := getLast?_of_ne_nil dg hdgne
    have hflat : (init ++ [g]).flatten = init.flatten ++ g := by
      rw [List.flatten_append]
      simp
    rw [hflat, ← List.append_assoc, List.getLast?_append_of_ne_nil _ (by
        rw [hgeq]; simp), hgeq,
      show (ec :: (sg ++ dg) : List Char) = (ec :: sg) ++ dg by simp,
      List.getLast?_append_of_ne_nil _ hdgne, hc]
    exact ⟨c, rfl, hdg c hcm⟩

theorem mant_head (d1 dot : List Char)
    (hd1 : ∀ c ∈ d1, isDigitChar c = true) (hdot : dotWF dot = true)
    (hmant : d1 ≠ [] ∨ dot ≠ []) :
    ∃ c r, d1 ++ dot = c :: r ∧ (isDigitChar c = true ∨ c = '.') := by
  cases d1 with
  | cons c r => exact ⟨c, r ++ dot, by simp, Or.inl (hd1 c (by simp))⟩
  | nil =>
      have hdne : dot ≠ [] := by
        rcases hmant with h1 | h1
        · exact absurd rfl h1
        · exact h1
      rcases dotWF_decomp dot hdot with hd | ⟨d2, rfl, -, -⟩
      · exact absurd hd hdne
      · exact ⟨'.', d2, by simp, Or.inr rfl⟩

theorem expGroups_length_le_flatten (exps : List (List Char))
    (hg : ∀ g ∈ exps, expGroupWF g = true) :
    exps.length ≤ exps.flatten.length := by
  induction exps with
  | nil => simp
  | cons g gs ih =>
      obtain ⟨ec, sg, dg, hgeq, -, -, -, -⟩ := expGroupWF_decomp g (hg g (by simp))
      have h1 : 1 ≤ g.length := by
        rw [hgeq]
        simp
      have h2 := ih (fun g' hg' => hg g' (by simp [hg']))
      simp only [List.length_cons, List.flatten_cons, List.length_append]
      omega

theorem expStarF_groups (exps : List (List Char)) (suffix : List Char)
    (hg : ∀ g ∈ exps, expGroupWF g = true)
    (hsuf : ∀ c ∈ suffix.take 1, isSpaceChar c = true) :
    ∀ fuel, exps.length ≤ fuel →
      ∃ j, expStarF fuel (exps.flatten ++ suffix) = suffix :: j := by
  induction exps with
  | nil =>
      intro fuel _
      simp only [List.flatten_nil, List.nil_append]
      rw [expStarF_no_iter suffix (expOnceCands_head_false _
        (fun c hc => (space_char_class c (hsuf c hc)).2.2.2.1)) fuel]
      exact ⟨[], rfl⟩
  | cons g gs ih =>
      intro fuel hfuel
      obtain ⟨fu, rfl⟩ : ∃ fu, fuel = fu + 1 := by
        cases fuel with
        | zero => simp at hfuel
        | succ n => exact ⟨n, rfl⟩
      obtain ⟨ec, sg, dg, hgeq, hec, hsg, hdgne, hdg⟩ :=
        expGroupWF_decomp g (hg g (by simp))
      have hgs : ∀ g' ∈ gs, expGroupWF g' = true := fun g' hg' => hg g' (by simp [hg'])
      have hRd : ∀ c ∈ (gs.flatten ++ suffix).take 1, isDigitChar c = false :=
        fun c hc => (exps_suffix_head_classes gs suffix hgs hsuf c hc).1
      have hdghead : ∀ c ∈ (dg ++ (gs.flatten ++ suffix)).take 1,
          isSignChar c = false := by
        cases dg with
        | nil => exact absurd rfl hdgne
        | cons c0 d0 =>
            intro c hc
            simp only [List.cons_append, List.take_succ_cons, List.take_zero,
              List.mem_singleton] at hc
            subst hc
            exact (digit_char_class c (hdg c (by simp))).1
      obtain ⟨j0, hj0⟩ :=
        optSignCands_append sg (dg ++ (gs.flatten ++ suffix)) hsg hdghead
      obtain ⟨j1, hj1⟩ := digitsPlusCands_append dg (gs.flatten ++ suffix) hdgne hdg hRd
      have honce : ∃ j, expOnceCands ((g :: gs).flatten ++ suffix)
          = (gs.flatten ++ suffix) :: j := by
        have hstr : (g :: gs).flatten ++ suffix
            = ec :: (sg ++ (dg ++ (gs.flatten ++ suffix))) := by
          rw [hgeq]
          simp [List.append_assoc]
        rw [hstr]
        rcases hec with h | h <;> subst h <;>
          · simp only [expOnceCands, decide_True, Bool.true_or, Bool.or_true, if_true]
            rw [hj0]
            simp only [List.flatMap_cons]
            rw [hj1]
            exact ⟨_, rfl⟩
      obtain ⟨jo, hjo⟩ := honce
      obtain ⟨j1', hj1'⟩ := ih hgs fu (by simpa using hfuel)
      rw [show expStarF (fu + 1) ((g :: gs).flatten ++ suffix)
          = ((expOnceCands ((g :: gs).flatten ++ suffix)).flatMap (expStarF fu))
              ++ [(g :: gs).flatten ++ suffix] from rfl]
      rw [hjo]
      simp only [List.flatMap_cons]
      rw [hj1']
      exact ⟨_, rfl⟩

theorem charsConsumed_append (A B : List Char) :
    charsConsumed (A ++ B) B = A := by
  unfold charsConsumed
  rw [show (A ++ B).length - B.length = A.length by simp [List.length_append],
    List.take_left]

theorem numberMatch_numeral (sgn d1 dot : List Char) (exps : List (List Char))
    (suffix : List Char) (hwf : numWF sgn d1 dot exps = true)
    (hsuf : ∀ c ∈ suffix.take 1, isSpaceChar c = true) :
    numberMatch (numeralChars sgn d1 dot exps ++ suffix) = some suffix := by
  obtain ⟨hsgn, hd1, hdot, hmant, hexps⟩ := numWF_parts _ _ _ _ hwf
  have hRcls := exps_suffix_head_classes exps suffix hexps hsuf
  have hRd : ∀ c ∈ (exps.flatten ++ suffix).take 1, isDigitChar c = false :=
    fun c hc => (hRcls c hc).1
  have hRdot : ∀ c ∈ (exps.flatten ++ suffix).take 1, isDotChar c = false :=
    fun c hc => (hRcls c hc).2.1
  have hstr : numeralChars sgn d1 dot exps ++ suffix
      = sgn ++ (d1 ++ (dot ++ (exps.flatten ++ suffix))) := by
    simp [numeralChars, List.append_assoc]
  have hstop1 : ∀ c ∈ (dot ++ (exps.flatten ++ suffix)).take 1,
      isDigitChar c = false := by
    rcases dotWF_decomp dot hdot with hd | ⟨d2, hdeq, -, -⟩
    · subst hd
      simpa using hRd
    · subst hdeq
      intro c hc
      simp only [List.cons_append, List.take_succ_cons, List.take_zero,
        List.mem_singleton] at hc
      subst hc
      decide
  have hdotstar : ∃ j, ((optCharCands isDotChar
        (dot ++ (exps.flatten ++ suffix))).flatMap digitsStarCands)
      = (exps.flatten ++ suffix) :: j := by
    rcases dotWF_decomp dot hdot with hd | ⟨d2, hdeq, hd2ne, hd2⟩
    · subst hd
      rw [List.nil_append, optCharCands_head_false _ _ hRdot]
      simp only [List.flatMap_cons, List.flatMap_nil, List.append_nil]
      rw [digitsStarCands_head_false _ hRd]
      exact ⟨[], rfl⟩
    · subst hdeq
      obtain ⟨j3, hj3⟩ := digitsStarCands_append d2 _ hd2 hRd
      rw [show ('.' :: d2) ++ (exps.flatten ++ suffix)
          = '.' :: (d2 ++ (exps.flatten ++ suffix)) from rfl,
        show optCharCands isDotChar ('.' :: (d2 ++ (exps.flatten ++ suffix)))
          = [d2 ++ (exps.flatten ++ suffix),
              '.' :: (d2 ++ (exps.flatten ++ suffix))] by
            simp [optCharCands, isDotChar]]
      simp only [List.flatMap_cons]
      rw [hj3]
      exact ⟨_, rfl⟩
  obtain ⟨jd, hjd⟩ := hdotstar
  have hbase : ∃ jb, numBaseCands (sgn ++ (d1 ++ (dot ++ (exps.flatten ++ suffix))))
      = (exps.flatten ++ suffix) :: jb := by
    cases d1 with
    | nil =>
      -- no integer digits: the mantissa is `.d2`, matched by the second
      -- alternative; the first alternative has no candidate at all
      rcases dotWF_decomp dot hdot with hd | ⟨d2, hdeq, hd2ne, hd2⟩
      · rcases hmant with h1 | h1
        · exact absurd rfl h1
        · exact absurd hd h1
      subst hdeq
      simp only [List.nil_append, List.cons_append]
      have hdothead : ∀ c ∈ (('.' :: (d2 ++ (exps.flatten ++ suffix))) :
          List Char).take 1, isDigitChar c = false := by
        intro c hc
        simp only [List.take_succ_cons, List.take_zero, List.mem_singleton] at hc
        subst hc
        decide
      have hplusnil : digitsPlusCands ('.' :: (d2 ++ (exps.flatten ++ suffix))) = [] :=
        digitsPlusCands_eq_nil _ hdothead
      have halt1 : numAlt1 (sgn ++ '.' :: (d2 ++ (exps.flatten ++ suffix))) = [] := by
        unfold numAlt1
        have hs' := hsgn
        simp only [signWF, Bool.or_eq_true, decide_eq_true_eq] at hs'
        rcases hs' with (h | h) | h <;> subst h
        · rw [List.nil_append, optCharCands_head_false isSignChar _ (by
            intro c hc
            simp only [List.take_succ_cons, List.take_zero, List.mem_singleton] at hc
            subst hc
            decide)]
          simp only [List.flatMap_cons, List.flatMap_nil, List.append_nil]
          rw [hplusnil]
          rfl
        · rw [show (['+'] ++ ('.' :: (d2 ++ (exps.flatten ++ suffix))) : List Char)
              = '+' :: '.' :: (d2 ++ (exps.flatten ++ suffix)) from rfl,
            show optCharCands isSignChar
                ('+' :: '.' :: (d2 ++ (exps.flatten ++ suffix)))
              = [('.' :: (d2 ++ (exps.flatten ++ suffix))),
                  '+' :: '.' :: (d2 ++ (exps.flatten ++ suffix))] by
                simp [optCharCands, isSignChar]]
          simp only [List.flatMap_cons, List.flatMap_nil, List.append_nil]
          rw [hplusnil, digitsPlusCands_eq_nil
            ('+' :: '.' :: (d2 ++ (exps.flatten ++ suffix))) (by
              intro c hc
              simp only [List.take_succ_cons, List.take_zero, List.mem_singleton] at hc
              subst hc
              decide)]
          rfl
        · rw [show (['-'] ++ ('.' :: (d2 ++ (exps.flatten ++ suffix))) : List Char)
              = '-' :: '.' :: (d2 ++ (exps.flatten ++ suffix)) from rfl,
            show optCharCands isSignChar
                ('-' :: '.' :: (d2 ++ (exps.flatten ++ suffix)))
              = [('.' :: (d2 ++ (exps.flatten ++ suffix))),
                  '-' :: '.' :: (d2 ++ (exps.flatten ++ suffix))] by
                simp [optCharCands, isSignChar]]
          simp only [List.flatMap_cons, List.flatMap_nil, List.append_nil]
          rw [hplusnil, digitsPlusCands_eq_nil
            ('-' :: '.' :: (d2 ++ (exps.flatten ++ suffix))) (by
              intro c hc
              simp only [List.take_succ_cons, List.take_zero, List.mem_singleton] at hc
              subst hc
              decide)]
          rfl
      have hMsign : ∀ c ∈ (('.' :: (d2 ++ (exps.flatten ++ suffix))) :
          List Char).take 1, isSignChar c = false := by
        intro c hc
        simp only [List.take_succ_cons, List.take_zero, List.mem_singleton] at hc
        subst hc
        decide
      obtain ⟨k0, hk0⟩ := optSignCands_append sgn _ hsgn hMsign
      obtain ⟨k3, hk3⟩ := digitsPlusCands_append d2 _ hd2ne hd2 hRd
      unfold numBaseCands
      rw [halt1, List.nil_append]
      unfold numAlt2
      rw [hk0]
      simp only [List.flatMap_cons]
      rw [digitsStarCands_head_false _ hdothead]
      simp only [List.flatMap_cons, List.flatMap_append, List.append_assoc,
        List.singleton_append]
      rw [show optCharCands isDotChar ('.' :: (d2 ++ (exps.flatten ++ suffix)))
          = [d2 ++ (exps.flatten ++ suffix),
              '.' :: (d2 ++ (exps.flatten ++ suffix))] by
            simp [optCharCands, isDotChar]]
      simp only [List.flatMap_cons]
      rw [hk3]
      exact ⟨_, rfl⟩
    | cons c0 d0 =>
      -- integer digits present: the first alternative matches greedily
      have hc0 : isDigitChar c0 = true := hd1 c0 (by simp)
      have hMsign : ∀ c ∈ ((c0 :: d0) ++ (dot ++ (exps.flatten ++ suffix))).take 1,
          isSignChar c = false := by
        intro c hc
        simp only [List.cons_append, List.take_succ_cons, List.take_zero,
          List.mem_singleton] at hc
        subst hc
        exact (digit_char_class _ hc0).1
      obtain ⟨j0, hj0⟩ := optSignCands_append sgn _ hsgn hMsign
      obtain ⟨j1, hj1⟩ := digitsPlusCands_append (c0 :: d0) _ (by simp) hd1 hstop1
      unfold numBaseCands numAlt1
      rw [hj0]
      simp only [List.flatMap_cons]
      rw [hj1]
      simp only [List.cons_append, List.flatMap_cons, List.flatMap_append,
        List.append_assoc]
      rw [hjd]
      exact ⟨_, rfl⟩
  obtain ⟨jb, hjb⟩ := hbase
  have hexpfuel : exps.length ≤ (exps.flatten ++ suffix).length := by
    have h := expGroups_length_le_flatten exps hexps
    rw [List.length_append]
    omega
  obtain ⟨je, hje⟩ := expStarF_groups exps suffix hexps hsuf _ hexpfuel
  have hcands : ∃ jc, numberCands (numeralChars sgn d1 dot exps ++ suffix)
      = suffix :: jc := by
    unfold numberCands
    rw [hstr, hjb]
    simp only [List.flatMap_cons]
    rw [hje]
    exact ⟨_, rfl⟩
  obtain ⟨jc, hjc⟩ := hcands
  have hpred : (dollarEnd suffix || boundaryB
      (charsConsumed (numeralChars sgn d1 dot exps ++ suffix) suffix).getLast?
      suffix.head?) = true := by
    cases suffix with
    | nil => rfl
    | cons ct rt =>
        have hsp' : isSpaceChar ct = true := hsuf ct (by simp)
        rw [charsConsumed_append]
        obtain ⟨cl, hcl, hcldig⟩ := numeral_getLast_digit sgn d1 dot exps hwf
        rw [hcl]
        simp [boundaryB, wordOpt, (digit_char_class cl hcldig).2.2.2.1,
          (space_char_class ct hsp').2.2.1]
  unfold numberMatch
  rw [hjc]
  simp [List.find?, hpred]

/-! ### Matching one whole-word assignment -/

theorem eqSpanParse_general (ws1 ws2 x : List Char)
    (h1 : ∀ c ∈ ws1, isSpaceChar c = true) (h2 : ∀ c ∈ ws2, isSpaceChar c = true)
    (hx : ∀ c ∈ x.take 1, isSpaceChar c = false) :
    eqSpanParse (ws1 ++ '=' :: (ws2 ++ x)) = some (ws1 ++ '=' :: ws2, x) := by
  have heq : isSpaceChar '=' = false := by decide
  have htw1 : (ws1 ++ '=' :: (ws2 ++ x)).takeWhile isSpaceChar = ws1 := by
    rw [takeWhile_append_all _ _ _ h1]
    simp [List.takeWhile_cons, heq]
  have htw2 : (ws2 ++ x).takeWhile isSpaceChar = ws2 := by
    rw [takeWhile_append_all _ _ _ h2, takeWhile_head_false _ _ hx]
    simp
  have hdrop1 : (ws1 ++ '=' :: (ws2 ++ x)).drop ws1.length = '=' :: (ws2 ++ x) :=
    List.drop_left ws1 _
  have hdrop2 : (ws2 ++ x).drop ws2.length = x := List.drop_left ws2 x
  simp [eqSpanParse, htw1, hdrop1, htw2, hdrop2]

theorem matchAt_assign (name : List Char) (hn : name ≠ [])
    (hna : ∀ c ∈ name, c.isAlpha = true)
    (prev : Option Char) (hprev : wordOpt prev = false)
    (ws1 ws2 sgn d1 dot : List Char) (exps : List (List Char)) (suffix : List Char)
    (hws1 : ∀ c ∈ ws1, isSpaceChar c = true) (hws2 : ∀ c ∈ ws2, isSpaceChar c = true)
    (hwf : numWF sgn d1 dot exps = true)
    (hsuf : ∀ c ∈ suffix.take 1, isSpaceChar c = true) :
    matchAt name prev
        (name ++ (ws1 ++ '=' :: (ws2 ++ (numeralChars sgn d1 dot exps ++ suffix))))
      = some (name ++ (ws1 ++ '=' :: ws2), suffix) := by
  obtain ⟨h0, nr, hname⟩ : ∃ h0 nr, name = h0 :: nr := by
    cases name with
    | nil => exact absurd rfl hn
    | cons c r => exact ⟨_, _, rfl⟩
  have hh0 : isWordChar h0 = true := by
    have h := hna h0 (by rw [hname]; simp)
    simp [isWordChar, h]
  have hcond : (prev.isNone || boundaryB prev
      (name ++ (ws1 ++ '=' :: (ws2 ++ (numeralChars sgn d1 dot exps ++
        suffix)))).head?) = true := by
    cases prev with
    | none => rfl
    | some c =>
        have hc : isWordChar c = false := by simpa [wordOpt] using hprev
        rw [hname]
        simp [boundaryB, wordOpt, hc, hh0]
  have hxhead : ∀ c ∈ (numeralChars sgn d1 dot exps ++ suffix).take 1,
      isSpaceChar c = false := by
    obtain ⟨hsgn, hd1, hdot, hmant, hexps⟩ := numWF_parts _ _ _ _ hwf
    have hs' := hsgn
    simp only [signWF, Bool.or_eq_true, decide_eq_true_eq] at hs'
    obtain ⟨cm, rm, hm, hcm⟩ := mant_head d1 dot hd1 hdot hmant
    rcases hs' with (h | h) | h <;> subst h
    · rw [show numeralChars [] d1 dot exps ++ suffix
          = (d1 ++ dot) ++ (exps.flatten ++ suffix) by
            simp [numeralChars, List.append_assoc],
        hm]
      intro c hc
      simp only [List.cons_append, List.take_succ_cons, List.take_zero,
        List.mem_singleton] at hc
      subst hc
      rcases hcm with hd | hd
      · exact (digit_char_class _ hd).2.2.1
      · rw [hd]
        decide
    · rw [show numeralChars ['+'] d1 dot exps ++ suffix
          = '+' :: (d1 ++ dot ++ exps.flatten ++ suffix) by
            simp [numeralChars, List.append_assoc]]
      intro c hc
      simp only [List.take_succ_cons, List.take_zero, List.mem_singleton] at hc
      subst hc
      decide
    · rw [show numeralChars ['-'] d1 dot exps ++ suffix
          = '-' :: (d1 ++ dot ++ exps.flatten ++ suffix) by
            simp [numeralChars, List.append_assoc]]
      intro c hc
      simp only [List.take_succ_cons, List.take_zero, List.mem_singleton] at hc
      subst hc
      decide
  unfold matchAt
  simp only [hcond, if_true]
  simp only [matchesAt_append, eqSpanParse_general ws1 ws2 _ hws1 hws2 hxhead,
    numberMatch_numeral sgn d1 dot exps suffix hwf hsuf]

/-! ### Scanning past name-free text -/

theorem lastOption_cons (prev : Option Char) (c : Char) (r : List Char) :
    lastOption prev (c :: r) = lastOption (some c) r := by
  cases r with
  | nil => simp [lastOption]
  | cons y ys =>
      unfold lastOption
      rw [List.getLast?_cons_cons]
      cases h : (y :: ys).getLast? with
      | none =>
          obtain ⟨cl, hcl, -⟩ := getLast?_of_ne_nil (y :: ys) (by simp)
          rw [hcl] at h
          cases h
      | some x => rfl

theorem subScanF_skip_seg (name v : List Char) (hn : name ≠ []) :
    ∀ (seg T : List Char) (prev : Option Char) (fuel : Nat),
      (∀ c ∈ seg, ¬ name.head? = some c) → seg.length ≤ fuel →
      subScanF name v fuel prev (seg ++ T)
        = seg ++ subScanF name v (fuel - seg.length) (lastOption prev seg) T := by
  intro seg
  induction seg with
  | nil =>
      intro T prev fuel _ _
      simp [lastOption]
  | cons c r ih =>
      intro T prev fuel hseg hlen
      obtain ⟨fu, rfl⟩ : ∃ fu, fuel = fu + 1 := by
        cases fuel with
        | zero => simp at hlen
        | succ n => exact ⟨n, rfl⟩
      have hm : matchAt name prev (c :: (r ++ T)) = Option.none := by
        apply matchAt_none_of_head name hn
        intro x hx
        simp only [List.take_succ_cons, List.take_zero, List.mem_singleton] at hx
        subst hx
        exact hseg x (by simp)
      rw [show ((c :: r) ++ T) = c :: (r ++ T) from rfl]
      simp only [subScanF, hm]
      rw [ih T (some c) fu (fun x hx => hseg x (by simp [hx]))
        (by simpa using Nat.le_of_succ_le_succ hlen)]
      simp only [List.cons_append, List.length_cons, Nat.succ_sub_succ,
        lastOption_cons]

/-! ### The scan over a full chain of assignments -/

theorem assignWfB_parts (name : List Char) (a : Assign)
    (h : Assign.wfB name a = true) :
    (∀ c ∈ a.ws1, isSpaceChar c = true) ∧ (∀ c ∈ a.ws2, isSpaceChar c = true) ∧
      numWF a.sgn a.d1 a.dot a.exps = true ∧
      (∀ c ∈ a.seg, ¬ name.head? = some c) ∧
      (∀ c ∈ a.seg.take 1, isSpaceChar c = true) ∧
      noNewline a.ws1 = true ∧ noNewline a.ws2 = true ∧ noNewline a.seg = true := by
  simp only [Assign.wfB, Bool.and_eq_true, List.all_eq_true] at h
  obtain ⟨⟨⟨⟨⟨⟨⟨h1, h2⟩, h3⟩, h4⟩, h5⟩, h6⟩, h7⟩, h8⟩ := h
  refine ⟨h1, h2, h6, ?_, h8, h3, h4, h5⟩
  intro c hc
  have h := h7 c hc
  simpa using h

theorem lineWfB_parts (name : List Char) (l : WfLine)
    (h : WfLine.wfB name l = true) :
    noNewline l.seg0 = true ∧ (∀ c ∈ l.seg0, ¬ name.head? = some c) ∧
      (l.occs.isEmpty || l.seg0.isEmpty || lastNonWord l.seg0) = true ∧
      assignsWF name l.occs = true ∧
      (l.newline || !l.seg0.isEmpty || !l.occs.isEmpty) = true := by
  simp only [WfLine.wfB, Bool.and_eq_true] at h
  obtain ⟨⟨⟨⟨h1, h2⟩, h3⟩, h4⟩, h5⟩ := h
  refine ⟨h1, ?_, h3, h4, h5⟩
  intro c hc
  simp only [List.all_eq_true] at h2
  have h := h2 c hc
  simpa using h

theorem tail_name_free (name : List Char) (hn : name ≠ [])
    (hna : ∀ c ∈ name, c.isAlpha = true) (tail : List Char)
    (htail : tail = [] ∨ tail = ['\n']) : ∀ c ∈ tail, ¬ name.head? = some c := by
  obtain ⟨h0, nr, hname⟩ : ∃ h0 nr, name = h0 :: nr := by
    cases name with
    | nil => exact absurd rfl hn
    | cons c r => exact ⟨_, _, rfl⟩
  rcases htail with rfl | rfl
  · simp
  · intro c hc
    simp only [List.mem_singleton] at hc
    subst hc
    rw [hname]
    intro he
    simp only [List.head?_cons, Option.some.injEq] at he
    exact absurd (he ▸ hna h0 (by rw [hname]; simp)) (by decide)

theorem wordOpt_lastOption (prev : Option Char) (seg : List Char)
    (h : lastNonWord seg = true) : wordOpt (lastOption prev seg) = false := by
  unfold lastNonWord at h
  unfold lastOption
  cases hsl : seg.getLast? with
  | none =>
      rw [hsl] at h
      simp at h
  | some x =>
      rw [hsl] at h
      simp only [Bool.not_eq_true'] at h
      simp [wordOpt, h]

theorem subScanF_assigns (name v : List Char) (hn : name ≠ [])
    (hna : ∀ c ∈ name, c.isAlpha = true) :
    ∀ (occs : List Assign) (tail : List Char) (prev : Option Char) (fuel : Nat),
      assignsWF name occs = true →
      (tail = [] ∨ tail = ['\n']) →
      (occs = [] ∨ wordOpt prev = false) →
      (renderAssigns name occs ++ tail).length < fuel →
      subScanF name v fuel prev (renderAssigns name occs ++ tail)
        = renderAssignsWith name v occs ++ tail := by
  intro occs
  induction occs with
  | nil =>
      intro tail prev fuel _ htail _ _
      simp only [renderAssigns, renderAssignsWith, List.map_nil, List.flatten_nil,
        List.nil_append]
      exact subScanF_no_match name v hn tail
        (tail_name_free name hn hna tail htail) fuel prev
  | cons a rest ih =>
      intro tail prev fuel hwf htail hprev hfuel
      simp only [assignsWF, Bool.and_eq_true] at hwf
      obtain ⟨⟨hA, hlink⟩, hrest⟩ := hwf
      obtain ⟨hws1, hws2, hnum, hsegname, hsegsp, -, -, -⟩ :=
        assignWfB_parts name a hA
      have hprev' : wordOpt prev = false := by
        rcases hprev with h | h
        · exact absurd h (List.cons_ne_nil a rest)
        · exact h
      have hs : renderAssigns name (a :: rest) ++ tail
          = name ++ (a.ws1 ++ '=' :: (a.ws2 ++ (numeralChars a.sgn a.d1 a.dot a.exps
              ++ (a.seg ++ (renderAssigns name rest ++ tail))))) := by
        simp [renderAssigns, Assign.render, Assign.num, List.append_assoc]
      have hsuf : ∀ c ∈ (a.seg ++ (renderAssigns name rest ++ tail)).take 1,
          isSpaceChar c = true := by
        cases hseg : a.seg with
        | cons c0 s0 =>
            intro c hc
            simp only [List.cons_append, List.take_succ_cons, List.take_zero,
              List.mem_singleton] at hc
            exact hsegsp c (by rw [hseg]; simp [hc])
        | nil =>
            have hrestnil : rest = [] := by
              simp only [Bool.or_eq_true] at hlink
              rcases hlink with h | h
              · exact List.isEmpty_iff.mp h
              · rw [hseg] at h
                simp [lastNonWord] at h
            subst hrestnil
            simp only [renderAssigns, List.map_nil, List.flatten_nil,
              List.nil_append]
            rcases htail with rfl | rfl
            · intro c hc
              simp at hc
            · intro c hc
              simp only [List.take_succ_cons, List.take_zero,
                List.mem_singleton] at hc
              rw [hc]
              decide
      have hmatch := matchAt_assign name hn hna prev hprev' a.ws1 a.ws2 a.sgn a.d1
        a.dot a.exps (a.seg ++ (renderAssigns name rest ++ tail)) hws1 hws2 hnum hsuf
      obtain ⟨fu, rfl⟩ : ∃ fu, fuel = fu + 1 := by
        cases fuel with
        | zero => simp at hfuel
        | succ n => exact ⟨n, rfl⟩
      rw [hs]
      simp only [subScanF, hmatch]
      have hccs : charsConsumed (name ++ (a.ws1 ++ '=' :: (a.ws2 ++
          (numeralChars a.sgn a.d1 a.dot a.exps ++ (a.seg ++ (renderAssigns name rest
            ++ tail)))))) (a.seg ++ (renderAssigns name rest ++ tail))
          = name ++ (a.ws1 ++ '=' :: (a.ws2 ++ numeralChars a.sgn a.d1 a.dot
              a.exps)) := by
        rw [show name ++ (a.ws1 ++ '=' :: (a.ws2 ++ (numeralChars a.sgn a.d1 a.dot
            a.exps ++ (a.seg ++ (renderAssigns name rest ++ tail)))))
            = (name ++ (a.ws1 ++ '=' :: (a.ws2 ++ numeralChars a.sgn a.d1 a.dot
                a.exps))) ++ (a.seg ++ (renderAssigns name rest ++ tail)) by
              simp [List.append_assoc]]
        exact charsConsumed_append _ _
      rw [hccs]
      obtain ⟨cl, hcl, hcldig⟩ := numeral_getLast_digit a.sgn a.d1 a.dot a.exps hnum
      have hnumne : numeralChars a.sgn a.d1 a.dot a.exps ≠ [] :=
        numeral_ne_nil _ _ _ _ hnum
      have hglast : (name ++ (a.ws1 ++ '=' :: (a.ws2 ++ numeralChars a.sgn a.d1 a.dot
          a.exps))).getLast? = some cl := by
        rw [List.getLast?_append_of_ne_nil _ (by simp),
          List.getLast?_append_of_ne_nil _ (by simp),
          show ('=' :: (a.ws2 ++ numeralChars a.sgn a.d1 a.dot a.exps) : List Char)
            = ['='] ++ (a.ws2 ++ numeralChars a.sgn a.d1 a.dot a.exps) from rfl,
          List.getLast?_append_of_ne_nil _ (by simp [hnumne]),
          List.getLast?_append_of_ne_nil _ hnumne, hcl]
      rw [hglast]
      have hlen_eq := congrArg List.length hs
      simp only [List.length_append, List.length_cons] at hlen_eq
      simp only [List.length_append] at hfuel
      have hsegfuel : a.seg.length ≤ fu := by omega
      rw [subScanF_skip_seg name v hn a.seg (renderAssigns name rest ++ tail)
        (some cl) fu hsegname hsegfuel]
      by_cases hre : rest = []
      · subst hre
        simp only [renderAssigns, List.map_nil, List.flatten_nil, List.nil_append]
        rw [subScanF_no_match name v hn tail
          (tail_name_free name hn hna tail htail) _ _]
        simp [renderAssignsWith, Assign.renderWith, List.append_assoc]
      · have hlnw : lastNonWord a.seg = true := by
          simp only [Bool.or_eq_true] at hlink
          rcases hlink with h | h
          · exact absurd (List.isEmpty_iff.mp h) hre
          · exact h
        rw [ih tail (lastOption (some cl) a.seg) (fu - a.seg.length) hrest htail
          (Or.inr (wordOpt_lastOption (some cl) a.seg hlnw))
          (by simp only [List.length_append]; omega)]
        simp [renderAssignsWith, Assign.renderWith, List.append_assoc]

theorem subLine_wfLine (name v : List Char) (hn : name ≠ [])
    (hna : ∀ c ∈ name, c.isAlpha = true) (l : WfLine)
    (hl : WfLine.wfB name l = true) :
    subLine name v (WfLine.render name l) = WfLine.renderWith name v l := by
  obtain ⟨hnl0, hseg0name, hbound, hoccs, -⟩ := lineWfB_parts name l hl
  unfold subLine
  have hs : WfLine.render name l
      = l.seg0 ++ (renderAssigns name l.occs ++
          (if l.newline then ['\n'] else [])) := by
    simp [WfLine.render, List.append_assoc]
  have htail : (if l.newline then ['\n'] else []) = [] ∨
      (if l.newline then ['\n'] else []) = ['\n'] := by
    rcases Bool.dichotomy l.newline with h | h <;> simp [h]
  have hprevc : l.occs = [] ∨ wordOpt (lastOption Option.none l.seg0) = false := by
    simp only [Bool.or_eq_true] at hbound
    rcases hbound with (h | h) | h
    · exact Or.inl (List.isEmpty_iff.mp h)
    · refine Or.inr ?_
      rw [List.isEmpty_iff.mp h]
      rfl
    · exact Or.inr (wordOpt_lastOption _ _ h)
  rw [hs]
  rw [subScanF_skip_seg name v hn l.seg0
    (renderAssigns name l.occs ++ (if l.newline then ['\n'] else []))
    Option.none _ hseg0name (by simp only [List.length_append]; omega)]
  rw [subScanF_assigns name v hn hna l.occs _ _ _ hoccs htail hprevc
    (by simp only [List.length_append]; omega)]
  simp [WfLine.renderWith, List.append_assoc]

/-! ### Splitting a well-delimited file into its lines -/

theorem noNewline_mem (s : List Char) (h : noNewline s = true) :
    ∀ c ∈ s, c ≠ '\n' := by
  intro c hc
  simp only [noNewline, List.all_eq_true] at h
  have h2 := h c hc
  simpa using h2

theorem numeral_no_newline (sgn d1 dot : List Char) (exps : List (List Char))
    (h : numWF sgn d1 dot exps = true) :
    ∀ c ∈ numeralChars sgn d1 dot exps, c ≠ '\n' := by
  obtain ⟨hsgn, hd1, hdot, -, hexps⟩ := numWF_parts _ _ _ _ h
  intro c hc
  unfold numeralChars at hc
  simp only [List.mem_append] at hc
  rcases hc with ((hc | hc) | hc) | hc
  · have hs' := hsgn
    simp only [signWF, Bool.or_eq_true, decide_eq_true_eq] at hs'
    rcases hs' with (h1 | h1) | h1 <;> subst h1
    · simp at hc
    · simp only [List.mem_singleton] at hc
      rw [hc]
      decide
    · simp only [List.mem_singleton] at hc
      rw [hc]
      decide
  · exact (digit_char_class c (hd1 c hc)).2.2.2.2
  · rcases dotWF_decomp dot hdot with h1 | ⟨d2, h1, -, hd2⟩
    · subst h1
      simp at hc
    · subst h1
      simp only [List.mem_cons] at hc
      rcases hc with hc | hc
      · rw [hc]
        decide
      · exact (digit_char_class c (hd2 c hc)).2.2.2.2
  · simp only [List.mem_flatten] at hc
    obtain ⟨g, hg, hcg⟩ := hc
    obtain ⟨ec, sg, dg, hgeq, hec, hsg, -, hdg⟩ := expGroupWF_decomp g (hexps g hg)
    subst hgeq
    simp only [List.mem_cons, List.mem_append] at hcg
    rcases hcg with hc1 | hc1 | hc1
    · subst hc1
      rcases hec with h1 | h1 <;> (rw [h1]; decide)
    · have hs' := hsg
      simp only [signWF, Bool.or_eq_true, decide_eq_true_eq] at hs'
      rcases hs' with (h1 | h1) | h1 <;> subst h1
      · simp at hc1
      · simp only [List.mem_singleton] at hc1
        rw [hc1]
        decide
      · simp only [List.mem_singleton] at hc1
        rw [hc1]
        decide
    · exact (digit_char_class c (hdg c hc1)).2.2.2.2

theorem renderAssigns_no_newline (name : List Char)
    (hna : ∀ c ∈ name, c.isAlpha = true) :
    ∀ occs, assignsWF name occs = true →
      ∀ c ∈ renderAssigns name occs, c ≠ '\n' := by
  intro occs
  induction occs with
  | nil =>
      intro _ c hc
      simp [renderAssigns] at hc
  | cons a rest ih =>
      intro hwf c hc
      simp only [assignsWF, Bool.and_eq_true] at hwf
      obtain ⟨⟨hA, -⟩, hrest⟩ := hwf
      obtain ⟨-, -, hnum, -, -, hnl1, hnl2, hnls⟩ := assignWfB_parts name a hA
      simp only [renderAssigns, List.map_cons, List.flatten_cons,
        List.mem_append] at hc
      rcases hc with hc | hc
      · simp only [Assign.render, Assign.num, List.mem_append, List.mem_cons] at hc
        rcases hc with (((hc | hc) | (hc | hc)) | hc) | hc
        · exact alpha_char_ne_newline c (hna c hc)
        · exact noNewline_mem a.ws1 hnl1 c hc
        · rw [hc]
          decide
        · exact noNewline_mem a.ws2 hnl2 c hc
        · exact numeral_no_newline a.sgn a.d1 a.dot a.exps hnum c hc
        · exact noNewline_mem a.seg hnls c hc
      · exact ih hrest c (by simpa [renderAssigns] using hc)

theorem render_core_no_newline (name : List Char)
    (hna : ∀ c ∈ name, c.isAlpha = true) (l : WfLine)
    (hl : WfLine.wfB name l = true) :
    ∀ c ∈ l.seg0 ++ renderAssigns name l.occs, c ≠ '\n' := by
  obtain ⟨hnl0, -, -, hoccs, -⟩ := lineWfB_parts name l hl
  intro c hc
  simp only [List.mem_append] at hc
  rcases hc with hc | hc
  · exact noNewline_mem l.seg0 hnl0 c hc
  · exact renderAssigns_no_newline name hna l.occs hoccs c hc

theorem splitLinesKeepAux_body (body : List Char) :
    ∀ (rest acc : List Char), (∀ c ∈ body, c ≠ '\n') →
      splitLinesKeepAux acc (body ++ '\n' :: rest)
        = (acc.reverse ++ (body ++ ['\n'])) :: splitLinesKeepAux [] rest := by
  induction body with
  | nil =>
      intro rest acc _
      simp [splitLinesKeepAux]
  | cons c b ih =>
      intro rest acc hb
      have hc : ¬ c = '\n' := hb c (by simp)
      simp only [List.cons_append, splitLinesKeepAux, if_neg hc, List.append_eq]
      rw [ih rest (c :: acc) (fun x hx => hb x (by simp [hx]))]
      simp

theorem splitLines_wfLines (name : List Char) (hn : name ≠ [])
    (hna : ∀ c ∈ name, c.isAlpha = true) :
    ∀ lines : List WfLine, (∀ l ∈ lines, WfLine.wfB name l = true) →
      lines.dropLast.all WfLine.newline = true →
      splitLinesKeepAux [] ((lines.map (WfLine.render name)).flatten)
        = lines.map (WfLine.render name) := by
  intro lines
  induction lines with
  | nil =>
      intro _ _
      rfl
  | cons l rest ih =>
      intro hwf hterm
      have hlwf := hwf l (by simp)
      have hcore := render_core_no_newline name hna l hlwf
      cases rest with
      | nil =>
          rcases Bool.dichotomy l.newline with hnl | hnl
          · have hne : l.seg0 ++ renderAssigns name l.occs ≠ [] := by
              obtain ⟨-, -, -, -, hlast⟩ := lineWfB_parts name l hlwf
              rw [hnl] at hlast
              simp only [Bool.false_or, Bool.or_eq_true, Bool.not_eq_true'] at hlast
              intro he
              obtain ⟨h1, h2⟩ := List.append_eq_nil.mp he
              rcases hlast with h | h
              · exact absurd h1 (List.isEmpty_eq_false.mp h)
              · have hone : l.occs ≠ [] := List.isEmpty_eq_false.mp h
                cases hoc : l.occs with
                | nil => exact hone hoc
                | cons a r' =>
                    rw [hoc] at h2
                    simp [renderAssigns, Assign.render] at h2
            rw [show (([l].map (WfLine.render name)).flatten)
                  = l.seg0 ++ renderAssigns name l.occs by
                simp [WfLine.render, hnl]]
            rw [splitLinesKeepAux_no_newline _ [] hcore (Or.inr hne)]
            simp [WfLine.render, hnl]
          · rw [show (([l].map (WfLine.render name)).flatten)
                  = (l.seg0 ++ renderAssigns name l.occs) ++ '\n' :: [] by
                simp [WfLine.render, hnl, List.append_assoc]]
            rw [splitLinesKeepAux_body _ [] [] hcore]
            simp [WfLine.render, hnl, splitLinesKeepAux, List.append_assoc]
      | cons l2 rest2 =>
          have hterm' := hterm
          rw [show (l :: l2 :: rest2).dropLast = l :: (l2 :: rest2).dropLast
            from rfl] at hterm'
          simp only [List.all_cons, Bool.and_eq_true] at hterm'
          have hnl : l.newline = true := hterm'.1
          have hrestwf : ∀ l' ∈ l2 :: rest2, WfLine.wfB name l' = true :=
            fun l' hl' => hwf l' (by simp [hl'])
          rw [show (((l :: l2 :: rest2).map (WfLine.render name)).flatten)
              = (l.seg0 ++ renderAssigns name l.occs)
                ++ '\n' :: (((l2 :: rest2).map (WfLine.render name)).flatten) by
            simp [WfLine.render, hnl, List.append_assoc]]
          rw [splitLinesKeepAux_body _ _ [] hcore]
          rw [ih hrestwf hterm'.2]
          simp [WfLine.render, hnl, List.append_assoc]

theorem set_parameter_file_wfLines (name v : List Char) (hn : name ≠ [])
    (hna : ∀ c ∈ name, c.isAlpha = true)
    (lines : List WfLine) (hwf : ∀ l ∈ lines, WfLine.wfB name l = true)
    (hterm : lines.dropLast.all WfLine.newline = true) :
    set_parameter_file name v ((lines.map (WfLine.render name)).flatten)
      = (lines.map (WfLine.renderWith name v)).flatten := by
  unfold set_parameter_file
  rw [splitLines_wfLines name hn hna lines hwf hterm, List.map_map]
  congr 1
  exact List.map_congr_left (fun l hl => subLine_wfLine name v hn hna l (hwf l hl))

/-! ### A substitution pass yields another well-delimited file -/

theorem isEmpty_map_assign (f : Assign → Assign) (L : List Assign) :
    (L.map f).isEmpty = L.isEmpty := by
  cases L <;> rfl

theorem renderAssignsWith_eq_render_withNum (name v vsgn vd1 vdot : List Char)
    (vexps : List (List Char)) (hveq : v = numeralChars vsgn vd1 vdot vexps)
    (occs : List Assign) :
    renderAssignsWith name v occs
      = renderAssigns name (occs.map (Assign.withNum vsgn vd1 vdot vexps)) := by
  subst hveq
  induction occs with
  | nil => rfl
  | cons a rest ih =>
      simp only [renderAssignsWith, renderAssigns, List.map_cons,
        List.flatten_cons] at ih ⊢
      rw [ih]
      rfl

theorem renderWith_withNum_eq (name v vsgn vd1 vdot : List Char)
    (vexps : List (List Char)) (occs : List Assign) :
    renderAssignsWith name v (occs.map (Assign.withNum vsgn vd1 vdot vexps))
      = renderAssignsWith name v occs := by
  induction occs with
  | nil => rfl
  | cons a rest ih =>
      simp only [renderAssignsWith, List.map_cons, List.flatten_cons] at ih ⊢
      rw [ih]
      rfl

theorem WfLine.renderWith_eq_render_withNum (name v vsgn vd1 vdot : List Char)
    (vexps : List (List Char)) (hveq : v = numeralChars vsgn vd1 vdot vexps)
    (l : WfLine) :
    WfLine.renderWith name v l
      = WfLine.render name (WfLine.withNum vsgn vd1 vdot vexps l) := by
  show l.seg0 ++ renderAssignsWith name v l.occs ++ (if l.newline then ['\n'] else [])
      = l.seg0 ++ renderAssigns name (l.occs.map (Assign.withNum vsgn vd1 vdot vexps))
        ++ (if l.newline then ['\n'] else [])
  rw [renderAssignsWith_eq_render_withNum name v vsgn vd1 vdot vexps hveq l.occs]

theorem WfLine.renderWith_withNum (name v vsgn vd1 vdot : List Char)
    (vexps : List (List Char)) (l : WfLine) :
    WfLine.renderWith name v (WfLine.withNum vsgn vd1 vdot vexps l)
      = WfLine.renderWith name v l := by
  show l.seg0 ++ renderAssignsWith name v (l.occs.map (Assign.withNum vsgn vd1 vdot
      vexps)) ++ (if l.newline then ['\n'] else [])
    = l.seg0 ++ renderAssignsWith name v l.occs ++ (if l.newline then ['\n'] else [])
  rw [renderWith_withNum_eq]

theorem assignsWF_withNum (name vsgn vd1 vdot : List Char)
    (vexps : List (List Char)) (hv : numWF vsgn vd1 vdot vexps = true) :
    ∀ occs, assignsWF name occs = true →
      assignsWF name (occs.map (Assign.withNum vsgn vd1 vdot vexps)) = true := by
  intro occs
  induction occs with
  | nil =>
      intro _
      rfl
  | cons a rest ih =>
      intro h
      simp only [assignsWF, List.map_cons, Bool.and_eq_true] at h ⊢
      obtain ⟨⟨hA, hlink⟩, hrest⟩ := h
      refine ⟨⟨?_, ?_⟩, ih hrest⟩
      · simp only [Assign.wfB, Assign.withNum, Bool.and_eq_true] at hA ⊢
        obtain ⟨⟨⟨⟨⟨⟨⟨h1, h2⟩, h3⟩, h4⟩, h5⟩, h6⟩, h7⟩, h8⟩ := hA
        exact ⟨⟨⟨⟨⟨⟨⟨h1, h2⟩, h3⟩, h4⟩, h5⟩, hv⟩, h7⟩, h8⟩
      · simp only [Bool.or_eq_true] at hlink ⊢
        rcases hlink with h | h
        · left
          rw [isEmpty_map_assign]
          exact h
        · right
          exact h

theorem WfLine.wfB_withNum (name vsgn vd1 vdot : List Char)
    (vexps : List (List Char)) (hv : numWF vsgn vd1 vdot vexps = true)
    (l : WfLine) (hl : WfLine.wfB name l = true) :
    WfLine.wfB name (WfLine.withNum vsgn vd1 vdot vexps l) = true := by
  simp only [WfLine.wfB, WfLine.withNum, Bool.and_eq_true] at hl ⊢
  obtain ⟨⟨⟨⟨h1, h2⟩, h3⟩, h4⟩, h5⟩ := hl
  refine ⟨⟨⟨⟨h1, h2⟩, ?_⟩,
    assignsWF_withNum name vsgn vd1 vdot vexps hv l.occs h4⟩, ?_⟩
  · simp only [Bool.or_eq_true] at h3 ⊢
    rcases h3 with (h | h) | h
    · exact Or.inl (Or.inl (by rw [isEmpty_map_assign]; exact h))
    · exact Or.inl (Or.inr h)
    · exact Or.inr h
  · simp only [Bool.or_eq_true] at h5 ⊢
    rcases h5 with (h | h) | h
    · exact Or.inl (Or.inl h)
    · exact Or.inl (Or.inr h)
    · refine Or.inr ?_
      rw [isEmpty_map_assign]
      exact h

theorem dropLast_all_newline_withNum (vsgn vd1 vdot : List Char)
    (vexps : List (List Char)) (lines : List WfLine)
    (h : lines.dropLast.all WfLine.newline = true) :
    (lines.map (WfLine.withNum vsgn vd1 vdot vexps)).dropLast.all
      WfLine.newline = true := by
  rw [← List.map_dropLast, List.all_map]
  simpa [Function.comp, WfLine.withNum] using h

/-- **C7, amended.** One application of `set_parameter_file` replaces
exactly the numbers of the whole-word `name = number` assignments and
leaves all surrounding text unchanged, and a second application with the
same value is byte-identical to the first, on every well-delimited file:
any number of lines (all but the last ending in a newline), each line
carrying any chain of assignments with arbitrary `\s*=\s*` spacing and
numbers drawn from the full grammar of the pattern's number group
(optional sign, integer or float mantissa, exponent groups), where each
number is followed by end-of-line or by whitespace, the name is
alphabetic, the written value follows the same number grammar, and the
text around the assignments never contains the name's first character.
Without such a proviso a second application can differ, as
`claim_C7_cex` shows. -/
theorem claim_C7 (name v vsgn vd1 vdot : List Char) (vexps : List (List Char))
    (lines : List WfLine)
    (hn : name ≠ []) (hna : ∀ c ∈ name, c.isAlpha = true)
    (hveq : v = numeralChars vsgn vd1 vdot vexps)
    (hv : numWF vsgn vd1 vdot vexps = true)
    (hlines : ∀ l ∈ lines, WfLine.wfB name l = true)
    (hterm : lines.dropLast.all WfLine.newline = true) :
    set_parameter_file name v ((lines.map (WfLine.render name)).flatten)
        = (lines.map (WfLine.renderWith name v)).flatten ∧
      set_parameter_file name v
          (set_parameter_file name v ((lines.map (WfLine.render name)).flatten))
        = set_parameter_file name v ((lines.map (WfLine.render name)).flatten) := by
  have h1 := set_parameter_file_wfLines name v hn hna lines hlines hterm
  refine ⟨h1, ?_⟩
  rw [h1]
  have hmapW : lines.map (WfLine.renderWith name v)
      = (lines.map (WfLine.withNum vsgn vd1 vdot vexps)).map
          (WfLine.render name) := by
    rw [List.map_map]
    exact List.map_congr_left (fun l _ =>
      WfLine.renderWith_eq_render_withNum name v vsgn vd1 vdot vexps hveq l)
  rw [hmapW]
  rw [set_parameter_file_wfLines name v hn hna
    (lines.map (WfLine.withNum vsgn vd1 vdot vexps))
    (by
      intro l' hl'
      obtain ⟨l, hl, rfl⟩ := List.mem_map.mp hl'
      exact WfLine.wfB_withNum name vsgn vd1 vdot vexps hv l (hlines l hl))
    (dropLast_all_newline_withNum vsgn vd1 vdot vexps lines hterm)]
  congr 1
  refine List.map_congr_left (fun l' hl' => ?_)
  obtain ⟨l, -, rfl⟩ := List.mem_map.mp hl'
  rw [WfLine.renderWith_withNum,
    WfLine.renderWith_eq_render_withNum name v vsgn vd1 vdot vexps hveq l]

/-- Witness data for `claim_C7`: line `ab  =3 ; ab= \t+.5` with two
assignments and a trailing newline. -/
def c7a1 : Assign :=
  { ws1 := [' ', ' '], ws2 := [], sgn := [], d1 := ['3'], dot := [],
    exps := [], seg := [' ', ';', ' '] }

/-- Second witness assignment: `ab= \t+.5` (sign, float, tab spacing). -/
def c7a2 : Assign :=
  { ws1 := [], ws2 := [' ', '\t'], sgn := ['+'], d1 := [], dot := ['.', '5'],
    exps := [], seg := [] }

/-- First witness line, newline-terminated. -/
def c7line1 : WfLine := { seg0 := [], occs := [c7a1, c7a2], newline := true }

/-- Second witness line: a bare comment `# x` with no trailing newline. -/
def c7line2 : WfLine := { seg0 := ['#', ' ', 'x'], occs := [], newline := false }

/-- Witness for `claim_C7` at name `ab`, value `-2.5e-7` (sign, float and
exponent) on a two-line file whose first line holds two assignments with
varying spacing. -/
theorem claim_C7_witness :
    (numWF ['-'] ['2'] ['.', '5'] [['e', '-', '7']] = true ∧
      (∀ l ∈ [c7line1, c7line2], WfLine.wfB "ab".data l = true)) ∧
      (set_parameter_file "ab".data "-2.5e-7".data
          (([c7line1, c7line2].map (WfLine.render "ab".data)).flatten)
        = ([c7line1, c7line2].map
            (WfLine.renderWith "ab".data "-2.5e-7".data)).flatten ∧
        set_parameter_file "ab".data "-2.5e-7".data
            (set_parameter_file "ab".data "-2.5e-7".data
              (([c7line1, c7line2].map (WfLine.render "ab".data)).flatten))
          = set_parameter_file "ab".data "-2.5e-7".data
              (([c7line1, c7line2].map (WfLine.render "ab".data)).flatten)) :=
  ⟨⟨by decide, by decide⟩,
    claim_C7 "ab".data "-2.5e-7".data ['-'] ['2'] ['.', '5'] [['e', '-', '7']]
      [c7line1, c7line2] (by decide) (by decide) (by decide) (by decide)
      (by decide) (by decide)⟩


/-! ## runmodel.py: data model of raw and aligned results -/

inductive PyObj
  | scalar (v : Int)
  | arr1 (xs : List Int)
  | arr2 (xss : List (List Int))
deriving DecidableEq

/-- `np.shape` of a per-node value (arrays produced by the models are
rectangular). -/
def pyShape : PyObj → List Nat
  | .scalar _ => []
  | .arr1 xs => [xs.length]
  | .arr2 xss => [xss.length, (xss.headD []).length]

/-- One feature's entry of a raw per-node result: the tuple
`(time_basis_or_None, values, interpolant_or_None)` produced by the node
evaluation worker.  A scipy interpolant evaluated on an array acts
elementwise, so it is modelled as a scalar function. -/
structure NodeFeature where
  t : Option (List Int)
  u : PyObj
  interp : Option (Int → Int)

abbrev Solve := List (String × NodeFeature)

/-- A stored `U[feature]` entry: either the Python list built by the
append loops or a numpy array produced by `np.array(...)`. -/
inductive StoredU
  | pylist (xs : List PyObj)
  | nparr (xs : List PyObj)
deriving DecidableEq

def StoredU.toList : StoredU → List PyObj
  | .pylist xs => xs
  | .nparr xs => xs

/-- Modelled from the spec: the Result Store (class `Data` of the
`uncertainty` module, which is not among the sources).  Per spec section 3
it holds, for each feature name, a time basis `t[feature]` and a response
collection `U[feature]`, plus the 0-D/1-D/2-D feature-name classification
that `setFeatures` computes from the first node's result; `resetValues`
clears the store at the start of every run, so `t` and `U` are empty
dicts when `storeResults` begins. -/
structure Data where
  features_0d : List String
  features_1d : List String
  features_2d : List String
  t : List (String × Option (List Int))
  U : List (String × StoredU)
deriving DecidableEq

/-- Python exceptions the embedded `RunModel` methods can raise. -/
inductive RunError
  | keyError (key : String)
  | indexError
  | typeError
  | valueError
  | notImplementedError
  | nameError
deriving DecidableEq

/-- `solved[feature]`: dict lookup, raising `KeyError` when absent. -/
def pyGet (s : Solve) (f : String) : Except RunError NodeFeature :=
  match assocFind s f with
  | Option.none => .error (.keyError f)
  | some nf => .ok nf

/-! ## runmodel.py: `performInterpolation` and `storeResults` -/

def listMax : List Nat → Nat
  | [] => 0
  | x :: xs => max x (listMax xs)

/-- `np.argmax` over the list of lengths: the index of the first
occurrence of the maximum (numpy keeps the first index while scanning for
a strictly greater element).  `np.argmax` of an empty sequence raises
`ValueError`; callers guard that case before reaching this function. -/
def npArgmax (l : List Nat) : Nat := l.indexOf (listMax l)

/-- `RunModel.performInterpolation` (runmodel.py lines 30-44) on the
non-raising path: collect the lengths of the native time bases, pick the
basis at `np.argmax` of the lengths as the canonical basis `t`, and
evaluate every node's interpolant on `t`.  The error cases of the Python
body (`len(None)`, `np.argmax` of an empty sequence, calling a `None`
interpolant) are raised by `store1dVal` before this function is
reached. -/
def performInterpolation (ts : List (List Int)) (interpolation : List (Int → Int)) :
    List Int × List (List Int) :=
  let lengths := ts.map List.length
  let t := ts.getD (npArgmax lengths) []
  (t, interpolation.map (fun inter => t.map inter))

/-- The `for solved in solves: ...append(solved[feature][1])` loops. -/
def collectUs (f : String) : List Solve → Except RunError (List PyObj)
  | [] => .ok []
  | s :: rest =>
      match pyGet s f with
      | .error e => .error e
      | .ok nf =>
          match collectUs f rest with
          | .error e => .error e
          | .ok us => .ok (nf.u :: us)

/-- The adaptive collection loop of `storeResults`:
`ts.append(solved[feature][0]); interpolation.append(solved[feature][2])`. -/
def collectTsInterp (f : String) :
    List Solve →
      Except RunError (List (Option (List Int)) × List (Option (Int → Int)))
  | [] => .ok ([], [])
  | s :: rest =>
      match pyGet s f with
      | .error e => .error e
      | .ok nf =>
          match collectTsInterp f rest with
          | .error e => .error e
          | .ok (ts, gs) => .ok (nf.t :: ts, nf.interp :: gs)

def optionsAll {α : Type} : List (Option α) → Option (List α)
  | [] => some []
  | Option.none :: _ => Option.none
  | some x :: rest =>
      match optionsAll rest with
      | Option.none => Option.none
      | some xs => some (x :: xs)

/-- The shared else-branch of the 2-D and 1-D loops of `storeResults`:
`t[feature] = solves[0][feature][0]` (raising `IndexError` on an empty
batch) and `U[feature] = ` the list of every node's raw values. -/
def storePlainVal (solves : List Solve) (f : String) :
    Except RunError (Option (List Int) × StoredU) :=
  match solves with
  | [] => .error .indexError
  | s0 :: _ =>
      match pyGet s0 f with
      | .error e => .error e
      | .ok nf0 =>
          match collectUs f solves with
          | .error e => .error e
          | .ok us => .ok (nf0.t, .pylist us)

/-- Body of one iteration of the `features_2d` loop of `storeResults`
(runmodel.py lines 55-66): for an adaptive model the feature
`"directComparison"` raises `NotImplementedError`; every other feature is
stored plainly. -/
def store2dVal (adaptive : Bool) (solves : List Solve) (f : String) :
    Except RunError (Option (List Int) × StoredU) :=
  if adaptive && f == "directComparison" then .error .notImplementedError
  else storePlainVal solves f

/-- Body of one iteration of the `features_1d` loop of `storeResults`
(runmodel.py lines 68-83): for an adaptive model the feature
`"directComparison"` is interpolated onto the canonical basis; every
other feature is stored plainly.  Error order follows the Python source:
`KeyError` while collecting, `TypeError` from `len(None)`, `ValueError`
from `np.argmax` of an empty sequence, `TypeError` from calling a `None`
interpolant. -/
def store1dVal (adaptive : Bool) (solves : List Solve) (f : String) :
    Except RunError (Option (List Int) × StoredU) :=
  if adaptive && f == "directComparison" then
    match collectTsInterp f solves with
    | .error e => .error e
    | .ok (tsOpt, gsOpt) =>
        match optionsAll tsOpt with
        | Option.none => .error .typeError
        | some ts =>
            if ts.isEmpty then .error .valueError
            else
              match optionsAll gsOpt with
              | Option.none => .error .typeError
              | some gs =>
                  let ti := performInterpolation ts gs
                  .ok (some ti.1, .nparr (ti.2.map PyObj.arr1))
  else storePlainVal solves f

/-- Body of one iteration of the `features_0d` loop of `storeResults`
(runmodel.py lines 86-92): `t[feature] = None` and the raw values as a
Python list. -/
def store0dVal (solves : List Solve) (f : String) :
    Except RunError (Option (List Int) × StoredU) :=
  match collectUs f solves with
  | .error e => .error e
  | .ok us => .ok (Option.none, .pylist us)

def dataSetFeature (d : Data) (f : String) (tv : Option (List Int)) (uv : StoredU) :
    Data :=
  { d with t := odInsert d.t f tv, U := odInsert d.U f uv }

/-- One of the three `for feature in ...` loops of `storeResults`: walk
the features in order, computing each feature's `(t, U)` entry and
mutating the store; a raised exception carries the store as mutated so
far, since Python mutates `self.data` in place. -/
def storeLoop (val : String → Except RunError (Option (List Int) × StoredU)) :
    List String → Data → Except (RunError × Data) Data
  | [], d => .ok d
  | f :: fs, d =>
      match val f with
      | .error e => .error (e, d)
      | .ok (tv, uv) => storeLoop val fs (dataSetFeature d f tv uv)

def shapesAgree : PyObj → List PyObj → Bool
  | _, [] => true
  | uPrev, u :: rest => decide (pyShape uPrev = pyShape u) && shapesAgree u rest

/-- Inner loop of `RunModel.isAdaptiveError` (runmodel.py lines 144-150):
for each feature of `features_1d + features_2d`, read
`self.data.U[feature]` (raising `KeyError` when the key is absent, and
`IndexError` for `[0]` on an empty list) and raise `ValueError` when two
successive nodes disagree in shape. -/
def isAdaptiveLoop (U : List (String × StoredU)) : List String → Except RunError Unit
  | [] => .ok ()
  | f :: fs =>
      match assocFind U f with
      | Option.none => .error (.keyError f)
      | some su =>
          match su.toList with
          | [] => .error .indexError
          | u0 :: rest =>
              if shapesAgree u0 rest then isAdaptiveLoop U fs
              else .error .valueError

/-- `RunModel.isAdaptiveError` (runmodel.py lines 139-150). -/
def isAdaptiveError (adaptive : Bool) (d : Data) : Except RunError Unit :=
  if adaptive then .ok ()
  else isAdaptiveLoop d.U (d.features_1d ++ d.features_2d)

/-- The Python loop variable `feature` as left over after the three loops
of `storeResults`: the last element of the last non-empty loop (the loops
run over `features_2d`, `features_1d`, `features_0d` in that order), or
nothing when no loop ran at all (`NameError`). -/
def leakedFeature (fs0 fs1 fs2 : List String) : Option String :=
  if fs0 ≠ [] then fs0.getLast?
  else if fs1 ≠ [] then fs1.getLast?
  else fs2.getLast?

/-- The final statement of `storeResults` (runmodel.py line 95):
`self.data.U[feature] = np.array(self.data.U[feature])`, executed exactly
once, outside the loops, on the leaked loop variable `feature`. -/
def finalArrayStep (fs0 fs1 fs2 : List String) (d : Data) :
    Except (RunError × Data) Data :=
  match leakedFeature fs0 fs1 fs2 with
  | Option.none => .error (.nameError, d)
  | some f =>
      match assocFind d.U f with
      | Option.none => .error (.keyError f, d)
      | some su => .ok { d with U := odInsert d.U f (.nparr su.toList) }

/-- Modelled from the spec: the store after `resetValues` (cleared) and
`setFeatures` (classification lists filled in), the state in which
`storeResults` starts its loops. -/
def mkData0 (fs0 fs1 fs2 : List String) : Data :=
  { features_0d := fs0, features_1d := fs1, features_2d := fs2, t := [], U := [] }

/-- `RunModel.storeResults` (runmodel.py lines 48-95).  `setFeatures` and
`resetValues` belong to the missing `uncertainty.Data` class and are
modelled from the spec: the run starts with a cleared store whose
classification lists `fs0`/`fs1`/`fs2` are the 0-D/1-D/2-D feature names
taken from the first node's result.  Then, exactly as in the source:
`isAdaptiveError` first, then the 2-D loop, the 1-D loop, the 0-D loop,
and the trailing `np.array` conversion. -/
def storeResults (adaptive : Bool) (fs0 fs1 fs2 : List String)
    (solves : List Solve) : Except (RunError × Data) Data :=
  let d0 : Data := mkData0 fs0 fs1 fs2
  match isAdaptiveError adaptive d0 with
  | .error e => .error (e, d0)
  | .ok _ =>
      match storeLoop (store2dVal adaptive solves) fs2 d0 with
      | .error e => .error e
      | .ok d2 =>
          match storeLoop (store1dVal adaptive solves) fs1 d2 with
          | .error e => .error e
          | .ok d1 =>
              match storeLoop (store0dVal solves) fs0 d1 with
              | .error e => .error e
              | .ok dz => finalArrayStep fs0 fs1 fs2 dz

/-- **C2.** The claim says that a non-adaptive run whose 1-D feature
changes shape between nodes raises the shape-mismatch `ValueError`.  The
code cannot do that: `storeResults` calls `isAdaptiveError` before any of
the loops that populate `data.U`, so the check reads the result store
that `resetValues` has just cleared, and `self.data.U[feature][0]` raises
`KeyError` — here on a two-node non-adaptive batch whose
`directComparison` values have shapes `(2,)` and `(3,)`.  The shape
comparison is never reached, on this or any other non-adaptive run with a
1-D or 2-D feature. -/
theorem claim_C2 :
    storeResults false [] ["directComparison"] []
        [[("directComparison",
            { t := some [0, 1], u := PyObj.arr1 [1, 2],
              interp := Option.none : NodeFeature })],
         [("directComparison",
            { t := some [0, 1, 2], u := PyObj.arr1 [1, 2, 3],
              interp := Option.none : NodeFeature })]] =
      .error (RunError.keyError "directComparison",
        { features_0d := [], features_1d := ["directComparison"],
          features_2d := [], t := [], U := [] }) := by
  rfl

/-- **C3, counterexample.** The claim says every adaptive run with a 2-D
feature raises the unsupported-configuration error before storing
anything.  The raise (runmodel.py line 57) only fires for the 2-D feature
named `"directComparison"`: an adaptive run whose 2-D feature is named
otherwise completes `storeResults` without raising and stores that
feature's results. -/
theorem claim_C3_cex :
    storeResults true [] [] ["someFeature"]
        [[("someFeature",
            { t := some [0], u := PyObj.arr2 [[1, 2]],
              interp := Option.none : NodeFeature })]] =
      .ok { features_0d := [], features_1d := [], features_2d := ["someFeature"],
            t := [("someFeature", some [0])],
            U := [("someFeature", StoredU.nparr [PyObj.arr2 [[1, 2]]])] } := by
  rfl

/-! ### Generic facts about the three store loops -/

theorem storeLoop_ok_val (val : String → Except RunError (Option (List Int) × StoredU))
    (fs : List String) (d' : Data) (f : String) :
    ∀ d : Data, storeLoop val fs d = .ok d' → f ∈ fs → ∃ p, val f = .ok p := by
  induction fs with
  | nil => intro d _ hf; simp at hf
  | cons g rest ih =>
      intro d h hf
      simp only [storeLoop] at h
      cases hg : val g with
      | error e => rw [hg] at h; simp at h
      | ok p =>
          rw [hg] at h
          obtain ⟨tv, uv⟩ := p
          rcases List.mem_cons.mp hf with h1 | h1
          · exact ⟨(tv, uv), h1 ▸ hg⟩
          · exact ih _ h h1

theorem storeLoop_ok_not_mem
    (val : String → Except RunError (Option (List Int) × StoredU))
    (fs : List String) (d' : Data) (k : String) (hk : k ∉ fs) :
    ∀ d : Data, storeLoop val fs d = .ok d' →
      assocFind d'.U k = assocFind d.U k ∧ assocFind d'.t k = assocFind d.t k := by
  induction fs with
  | nil =>
      intro d h
      simp only [storeLoop, Except.ok.injEq] at h
      subst h
      exact ⟨rfl, rfl⟩
  | cons g rest ih =>
      intro d h
      have hkg : k ≠ g := fun e => hk (by simp [e])
      have hkr : k ∉ rest := fun e => hk (by simp [e])
      simp only [storeLoop] at h
      cases hg : val g with
      | error e => rw [hg] at h; simp at h
      | ok p =>
          rw [hg] at h
          obtain ⟨tv, uv⟩ := p
          have hrec := ih hkr _ h
          refine ⟨?_, ?_⟩
          · rw [hrec.1]
            simp [dataSetFeature, assocFind_odInsert_ne _ _ _ _ hkg]
          · rw [hrec.2]
            simp [dataSetFeature, assocFind_odInsert_ne _ _ _ _ hkg]

theorem storeLoop_ok_mem
    (val : String → Except RunError (Option (List Int) × StoredU))
    (fs : List String) (d' : Data) (f : String) (tv : Option (List Int))
    (uv : StoredU) (hval : val f = .ok (tv, uv)) :
    ∀ d : Data, storeLoop val fs d = .ok d' → f ∈ fs →
      assocFind d'.U f = some uv ∧ assocFind d'.t f = some tv := by
  induction fs with
  | nil => intro d _ hf; simp at hf
  | cons g rest ih =>
      intro d h hf
      simp only [storeLoop] at h
      cases hg : val g with
      | error e => rw [hg] at h; simp at h
      | ok p =>
          rw [hg] at h
          obtain ⟨tv', uv'⟩ := p
          by_cases hfr : f ∈ rest
          · exact ih _ h hfr
          · have hfg : f = g := by
              rcases List.mem_cons.mp hf with h1 | h1
              · exact h1
              · exact absurd h1 hfr
            subst hfg
            rw [hval] at hg
            have htv : tv = tv' ∧ uv = uv' := by
              have := Except.ok.inj hg
              exact ⟨congrArg Prod.fst this, congrArg Prod.snd this⟩
            obtain ⟨h1, h2⟩ := htv
            subst h1
            subst h2
            have hpres := storeLoop_ok_not_mem val rest d' f hfr _ h
            refine ⟨?_, ?_⟩
            · rw [hpres.1]
              simp [dataSetFeature, assocFind_odInsert_self]
            · rw [hpres.2]
              simp [dataSetFeature, assocFind_odInsert_self]

theorem storeLoop_error_of_val_error
    (val : String → Except RunError (Option (List Int) × StoredU))
    (g : String) (eg : RunError) (hvg : val g = .error eg) :
    ∀ (fs : List String) (d : Data), g ∈ fs →
      (∀ f ∈ fs, f ≠ g → ∃ p, val f = .ok p) →
      ∃ dE, storeLoop val fs d = .error (eg, dE) ∧
        ∀ k, k ∉ fs →
          assocFind dE.U k = assocFind d.U k ∧
            assocFind dE.t k = assocFind d.t k := by
  intro fs
  induction fs with
  | nil => intro d h; simp at h
  | cons f0 rest ih =>
      intro d hmem hok
      by_cases hf0 : f0 = g
      · subst hf0
        refine ⟨d, ?_, fun k _ => ⟨rfl, rfl⟩⟩
        simp [storeLoop, hvg]
      · obtain ⟨p, hp⟩ := hok f0 (by simp) hf0
        obtain ⟨tv, uv⟩ := p
        have hgr : g ∈ rest := by
          rcases List.mem_cons.mp hmem with h1 | h1
          · exact absurd h1.symm hf0
          · exact h1
        obtain ⟨dE, hE, hpres⟩ :=
          ih (dataSetFeature d f0 tv uv) hgr (fun f hf hne => hok f (by simp [hf]) hne)
        refine ⟨dE, ?_, ?_⟩
        · simp [storeLoop, hp, hE]
        · intro k hk
          have hkf0 : k ≠ f0 := fun e => hk (by simp [e])
          have hkr : k ∉ rest := fun e => hk (by simp [e])
          have hh := hpres k hkr
          refine ⟨?_, ?_⟩
          · rw [hh.1]
            simp [dataSetFeature, assocFind_odInsert_ne _ _ _ _ hkf0]
          · rw [hh.2]
            simp [dataSetFeature, assocFind_odInsert_ne _ _ _ _ hkf0]

/-- **C3, amended.** In an adaptive run, the unsupported-configuration
error (`NotImplementedError`) is raised exactly when `"directComparison"`
is among the 2-D features, and it is raised from within the 2-D loop:
no interpolation is attempted and nothing is stored for any 1-D or 0-D
feature (2-D features that precede `"directComparison"` in iteration
order, however, are stored before the raise).  An adaptive run whose 2-D
features do not include `"directComparison"` does not raise at all
(`claim_C3_cex`). -/
theorem claim_C3 (fs0 fs1 fs2 : List String) (solves : List Solve)
    (hdc : "directComparison" ∈ fs2)
    (hok2 : ∀ f ∈ fs2, f ≠ "directComparison" →
      ∃ p, store2dVal true solves f = .ok p)
    (hdisj : ∀ f, f ∈ fs0 ∨ f ∈ fs1 → f ∉ fs2) :
    ∃ dE, storeResults true fs0 fs1 fs2 solves =
        .error (RunError.notImplementedError, dE) ∧
      ∀ f, f ∈ fs0 ∨ f ∈ fs1 →
        assocFind dE.U f = Option.none ∧ assocFind dE.t f = Option.none := by
  have hval : store2dVal true solves "directComparison" =
      .error .notImplementedError := by
    simp [store2dVal]
  obtain ⟨dE, hE, hpres⟩ :=
    storeLoop_error_of_val_error (store2dVal true solves) _ _ hval fs2
      (mkData0 fs0 fs1 fs2) hdc hok2
  refine ⟨dE, ?_, ?_⟩
  · simp only [storeResults, isAdaptiveError, if_true, hE]
  · intro f hf
    have hh := hpres f (hdisj f hf)
    exact ⟨hh.1, hh.2⟩

/-- Witness for `claim_C3`: an adaptive run whose 2-D features are
`["g", "directComparison"]`, with a 0-D feature `"z"`. -/
theorem claim_C3_witness :
    ("directComparison" ∈ ["g", "directComparison"]) ∧
      ∃ dE, storeResults true ["z"] [] ["g", "directComparison"]
          [[("g",
             { t := some [0], u := PyObj.arr2 [[1, 2]],
               interp := Option.none : NodeFeature }),
            ("directComparison",
             { t := some [0], u := PyObj.arr2 [[3, 4]],
               interp := Option.none : NodeFeature }),
            ("z",
             { t := Option.none, u := PyObj.scalar 1,
               interp := Option.none : NodeFeature })]] =
          .error (RunError.notImplementedError, dE) ∧
        ∀ f, f ∈ ["z"] ∨ f ∈ ([] : List String) →
          assocFind dE.U f = Option.none ∧ assocFind dE.t f = Option.none :=
  ⟨by decide,
    claim_C3 ["z"] [] ["g", "directComparison"] _ (by decide)
      (by
        intro f hf hne
        fin_cases hf
        · exact ⟨_, rfl⟩
        · exact absurd rfl hne)
      (by
        intro f hf
        rcases hf with h | h
        · fin_cases h
          decide
        · simp at h)⟩

theorem storeResults_ok_iff (adaptive : Bool) (fs0 fs1 fs2 : List String)
    (solves : List Solve) (d : Data) :
    storeResults adaptive fs0 fs1 fs2 solves = .ok d ↔
      ∃ d2 d1 dz,
        isAdaptiveError adaptive (mkData0 fs0 fs1 fs2) = .ok () ∧
        storeLoop (store2dVal adaptive solves) fs2 (mkData0 fs0 fs1 fs2) = .ok d2 ∧
        storeLoop (store1dVal adaptive solves) fs1 d2 = .ok d1 ∧
        storeLoop (store0dVal solves) fs0 d1 = .ok dz ∧
        finalArrayStep fs0 fs1 fs2 dz = .ok d := by
  unfold storeResults
  cases hAE : isAdaptiveError adaptive (mkData0 fs0 fs1 fs2) with
  | error e => simp [hAE]
  | ok u =>
      cases u
      cases h2 : storeLoop (store2dVal adaptive solves) fs2 (mkData0 fs0 fs1 fs2) with
      | error e => simp [hAE, h2]
      | ok d2 =>
          cases h1 : storeLoop (store1dVal adaptive solves) fs1 d2 with
          | error e => simp [hAE, h2, h1]
          | ok d1 =>
              cases hz : storeLoop (store0dVal solves) fs0 d1 with
              | error e => simp [hAE, h2, h1, hz]
              | ok dz => simp [hAE, h2, h1, hz]

theorem store0dVal_ok (solves : List Solve) (f : String)
    (p : Option (List Int) × StoredU) (h : store0dVal solves f = .ok p) :
    ∃ us, p = (Option.none, StoredU.pylist us) := by
  unfold store0dVal at h
  cases hc : collectUs f solves with
  | error e => rw [hc] at h; simp at h
  | ok us =>
      rw [hc] at h
      exact ⟨us, (Except.ok.inj h).symm⟩

theorem storePlainVal_ok (solves : List Solve) (f : String)
    (p : Option (List Int) × StoredU) (h : storePlainVal solves f = .ok p) :
    ∃ tv us, p = (tv, StoredU.pylist us) := by
  unfold storePlainVal at h
  cases solves with
  | nil => simp at h
  | cons s0 rest =>
      dsimp only at h
      cases hg : pyGet s0 f with
      | error e => rw [hg] at h; simp at h
      | ok nf0 =>
          rw [hg] at h
          dsimp only at h
          cases hc : collectUs f (s0 :: rest) with
          | error e => rw [hc] at h; simp at h
          | ok us =>
              rw [hc] at h
              dsimp only at h
              exact ⟨nf0.t, us, (Except.ok.inj h).symm⟩

theorem finalArrayStep_ok_lookup (fs0 fs1 fs2 : List String) (d d' : Data)
    (h : finalArrayStep fs0 fs1 fs2 d = .ok d') (lf : String)
    (hlf : leakedFeature fs0 fs1 fs2 = some lf) :
    (∃ su, assocFind d.U lf = some su ∧
        assocFind d'.U lf = some (StoredU.nparr su.toList)) ∧
      (∀ k, k ≠ lf → assocFind d'.U k = assocFind d.U k) ∧ d'.t = d.t := by
  unfold finalArrayStep at h
  rw [hlf] at h
  dsimp only at h
  cases hsu : assocFind d.U lf with
  | none => rw [hsu] at h; simp at h
  | some su =>
      rw [hsu] at h
      dsimp only at h
      have hd' : d' = { d with U := odInsert d.U lf (.nparr su.toList) } :=
        (Except.ok.inj h).symm
      subst hd'
      refine ⟨⟨su, rfl, by simp [assocFind_odInsert_self]⟩, ?_, rfl⟩
      intro k hk
      simp [assocFind_odInsert_ne _ _ _ _ hk]

theorem getLast?_mem_of_ne_nil (l : List String) (h : l ≠ []) :
    ∃ x, l.getLast? = some x ∧ x ∈ l := by
  induction l with
  | nil => exact absurd rfl h
  | cons a r ih =>
      cases r with
      | nil => exact ⟨a, rfl, by simp⟩
      | cons b r' =>
          obtain ⟨x, hx, hm⟩ := ih (by simp)
          exact ⟨x, by rw [List.getLast?_cons_cons]; exact hx, by simp [hm]⟩

/-- **C10.** After a successful `storeResults` on a result set with at
least one 0-D feature, exactly one feature's stored `U` entry is
converted to a numpy array by the trailing conversion statement: the
feature iterated last in the 0-D loop (the value leaked by the loop
variable).  Every other feature's `U` entry — 0-D, 1-D non-adaptive and
2-D alike — remains the Python list built during collection, the 1-D
adaptive `directComparison` matrix (itself a numpy array built by
`performInterpolation`) being the only exception. -/
theorem claim_C10 (adaptive : Bool) (fs0 fs1 fs2 : List String)
    (solves : List Solve) (d : Data) (h0 : fs0 ≠ [])
    (h01 : ∀ f ∈ fs0, f ∉ fs1) (h02 : ∀ f ∈ fs0, f ∉ fs2)
    (h12 : ∀ f ∈ fs1, f ∉ fs2)
    (hok : storeResults adaptive fs0 fs1 fs2 solves = .ok d) :
    ∃ lf, leakedFeature fs0 fs1 fs2 = some lf ∧ lf ∈ fs0 ∧
      (∃ xs, assocFind d.U lf = some (StoredU.nparr xs)) ∧
      ∀ f ∈ fs0 ++ fs1 ++ fs2, f ≠ lf →
        ¬(adaptive = true ∧ f = "directComparison" ∧ f ∈ fs1) →
        ∃ xs, assocFind d.U f = some (StoredU.pylist xs) := by
  rw [storeResults_ok_iff] at hok
  obtain ⟨d2, d1, dz, _, h2, h1, hz, hfin⟩ := hok
  obtain ⟨lf, hlf?, hlfmem⟩ := getLast?_mem_of_ne_nil fs0 h0
  have hleak : leakedFeature fs0 fs1 fs2 = some lf := by
    unfold leakedFeature
    rw [if_pos h0]
    exact hlf?
  obtain ⟨⟨su, _, hsu'⟩, hothers, _⟩ :=
    finalArrayStep_ok_lookup fs0 fs1 fs2 dz d hfin lf hleak
  refine ⟨lf, hleak, hlfmem, ⟨su.toList, hsu'⟩, ?_⟩
  intro f hf hne hnadc
  have hf3 : f ∈ fs0 ∨ f ∈ fs1 ∨ f ∈ fs2 := by
    rcases List.mem_append.mp hf with h01 | h2
    · rcases List.mem_append.mp h01 with h | h
      · exact Or.inl h
      · exact Or.inr (Or.inl h)
    · exact Or.inr (Or.inr h2)
  rcases hf3 with hf0 | hf1 | hf2
  · -- f is a 0-D feature
    obtain ⟨p, hp⟩ := storeLoop_ok_val _ _ _ f _ hz hf0
    obtain ⟨us, hus⟩ := store0dVal_ok solves f p hp
    subst hus
    have hmem := storeLoop_ok_mem _ _ _ f _ _ hp _ hz hf0
    refine ⟨us, ?_⟩
    rw [hothers f hne]
    exact hmem.1
  · -- f is a 1-D feature, not the adaptive directComparison
    have hcond : (adaptive && (f == "directComparison")) = false := by
      cases adaptive with
      | false => rfl
      | true =>
          have hfd : f ≠ "directComparison" := by
            intro e
            exact hnadc ⟨rfl, e, hf1⟩
          simp [hfd]
    obtain ⟨p, hp⟩ := storeLoop_ok_val _ _ _ f _ h1 hf1
    rw [store1dVal, hcond] at hp
    simp only [Bool.false_eq_true, if_false] at hp
    obtain ⟨tv, us, hus⟩ := storePlainVal_ok solves f p hp
    subst hus
    have hmem := storeLoop_ok_mem _ _ _ f _ _
      (by rw [store1dVal, hcond]; simpa using hp) _ h1 hf1
    have hpres0 := storeLoop_ok_not_mem _ fs0 _ f
      (fun hc => h01 f hc hf1) _ hz
    refine ⟨us, ?_⟩
    rw [hothers f hne, hpres0.1]
    exact hmem.1
  · -- f is a 2-D feature
    obtain ⟨p, hp⟩ := storeLoop_ok_val _ _ _ f _ h2 hf2
    have hcond : (adaptive && (f == "directComparison")) = false := by
      cases hc : (adaptive && (f == "directComparison")) with
      | false => rfl
      | true =>
          rw [store2dVal, hc] at hp
          simp at hp
    rw [store2dVal, hcond] at hp
    simp only [Bool.false_eq_true, if_false] at hp
    obtain ⟨tv, us, hus⟩ := storePlainVal_ok solves f p hp
    subst hus
    have hmem := storeLoop_ok_mem _ _ _ f _ _
      (by rw [store2dVal, hcond]; simpa using hp) _ h2 hf2
    have hpres1 := storeLoop_ok_not_mem _ fs1 _ f
      (fun hc => h12 f hc hf2) _ h1
    have hpres0 := storeLoop_ok_not_mem _ fs0 _ f
      (fun hc => h02 f hc hf2) _ hz
    refine ⟨us, ?_⟩
    rw [hothers f hne, hpres0.1, hpres1.1]
    exact hmem.1

/-- Witness for `claim_C10`: an adaptive two-node run with 0-D features
`["s", "r"]` and the 1-D feature `["fOne"]`; the last 0-D feature `"r"`
ends up as a numpy array, `"s"` and `"fOne"` stay Python lists. -/
theorem claim_C10_witness :
    (["s", "r"] ≠ ([] : List String)) ∧
      ∃ lf, leakedFeature ["s", "r"] ["fOne"] [] = some lf ∧ lf ∈ ["s", "r"] ∧
        (∃ xs, assocFind (Data.U
            { features_0d := ["s", "r"], features_1d := ["fOne"], features_2d := [],
              t := [("fOne", some [0, 1]), ("s", Option.none), ("r", Option.none)],
              U := [("fOne", StoredU.pylist [PyObj.arr1 [5, 6], PyObj.arr1 [7, 8]]),
                    ("s", StoredU.pylist [PyObj.scalar 3, PyObj.scalar 5]),
                    ("r", StoredU.nparr [PyObj.scalar 4, PyObj.scalar 6])] }) lf
          = some (StoredU.nparr xs)) ∧
        ∀ f ∈ ["s", "r"] ++ ["fOne"] ++ [], f ≠ lf →
          ¬(true = true ∧ f = "directComparison" ∧ f ∈ ["fOne"]) →
          ∃ xs, assocFind (Data.U
              { features_0d := ["s", "r"], features_1d := ["fOne"], features_2d := [],
                t := [("fOne", some [0, 1]), ("s", Option.none), ("r", Option.none)],
                U := [("fOne", StoredU.pylist [PyObj.arr1 [5, 6], PyObj.arr1 [7, 8]]),
                      ("s", StoredU.pylist [PyObj.scalar 3, PyObj.scalar 5]),
                      ("r", StoredU.nparr [PyObj.scalar 4, PyObj.scalar 6])] }) f
            = some (StoredU.pylist xs) :=
  ⟨by decide,
    claim_C10 true ["s", "r"] ["fOne"] []
      [[("fOne",
         { t := some [0, 1], u := PyObj.arr1 [5, 6],
           interp := Option.none : NodeFeature }),
        ("s",
         { t := Option.none, u := PyObj.scalar 3,
           interp := Option.none : NodeFeature }),
        ("r",
         { t := Option.none, u := PyObj.scalar 4,
           interp := Option.none : NodeFeature })],
       [("fOne",
         { t := some [0, 1], u := PyObj.arr1 [7, 8],
           interp := Option.none : NodeFeature }),
        ("s",
         { t := Option.none, u := PyObj.scalar 5,
           interp := Option.none : NodeFeature }),
        ("r",
         { t := Option.none, u := PyObj.scalar 6,
           interp := Option.none : NodeFeature })]] _
      (by decide) (by decide) (by decide) (by decide) rfl⟩

/-! ### Facts feeding the interpolation claim -/

def dummyNF : NodeFeature :=
  { t := Option.none, u := PyObj.scalar 0, interp := Option.none }

theorem collectTsInterp_eq (f : String) (solves : List Solve)
    (h : ∀ s ∈ solves, (assocFind s f).isSome = true) :
    collectTsInterp f solves =
      .ok (solves.map (fun s => ((assocFind s f).getD dummyNF).t),
           solves.map (fun s => ((assocFind s f).getD dummyNF).interp)) := by
  induction solves with
  | nil => rfl
  | cons s rest ih =>
      obtain ⟨nf, hnf⟩ := Option.isSome_iff_exists.mp (h s (by simp))
      have hrec := ih (fun x hx => h x (by simp [hx]))
      simp [collectTsInterp, pyGet, hnf, hrec]

theorem map_bind_t_eq (f : String) :
    ∀ (solves : List Solve) (bs : List (List Int)),
      solves.map (fun s => (assocFind s f).bind NodeFeature.t) = bs.map some →
      (∀ s ∈ solves, (assocFind s f).isSome = true) ∧
        solves.map (fun s => ((assocFind s f).getD dummyNF).t) = bs.map some := by
  intro solves
  induction solves with
  | nil =>
      intro bs h
      cases bs with
      | nil => exact ⟨by simp, by simp⟩
      | cons b bs' => simp at h
  | cons s rest ih =>
      intro bs h
      cases bs with
      | nil => simp at h
      | cons b bs' =>
          simp only [List.map_cons, List.cons.injEq] at h
          obtain ⟨h1, h2⟩ := h
          have hsome : (assocFind s f).isSome = true := by
            cases hnf : assocFind s f with
            | none => rw [hnf] at h1; simp at h1
            | some nf => rfl
          obtain ⟨hall, hmap⟩ := ih bs' h2
          refine ⟨?_, ?_⟩
          · intro x hx
            rcases List.mem_cons.mp hx with e | e
            · subst e; exact hsome
            · exact hall x e
          · simp only [List.map_cons, hmap, List.cons.injEq]
            refine ⟨?_, trivial⟩
            cases hnf : assocFind s f with
            | none => rw [hnf] at h1; simp at h1
            | some nf =>
                rw [hnf] at h1
                simpa using h1

theorem optionsAll_map_some {α : Type} (l : List α) :
    optionsAll (l.map some) = some l := by
  induction l with
  | nil => rfl
  | cons x xs ih => simp [optionsAll, ih]

theorem optionsAll_isSome {α : Type} (l : List (Option α))
    (h : ∀ o ∈ l, o.isSome = true) :
    ∃ xs, optionsAll l = some xs ∧ xs.length = l.length := by
  induction l with
  | nil => exact ⟨[], rfl, rfl⟩
  | cons o rest ih =>
      obtain ⟨x, hx⟩ := Option.isSome_iff_exists.mp (h o (by simp))
      obtain ⟨xs, hxs, hlen⟩ := ih (fun y hy => h y (by simp [hy]))
      subst hx
      exact ⟨x :: xs, by simp [optionsAll, hxs], by simp [hlen]⟩

theorem listMax_mem (l : List Nat) (h : l ≠ []) : listMax l ∈ l := by
  induction l with
  | nil => exact absurd rfl h
  | cons x xs ih =>
      by_cases hx : listMax xs ≤ x
      · simp [listMax, max_eq_left hx]
      · push_neg at hx
        have hmax : listMax (x :: xs) = listMax xs := by
          simp [listMax, max_eq_right (le_of_lt hx)]
        rw [hmax]
        have hxs : xs ≠ [] := by
          rintro rfl
          simp [listMax] at hx
        exact List.mem_cons_of_mem x (ih hxs)

theorem le_listMax (l : List Nat) (a : Nat) (h : a ∈ l) : a ≤ listMax l := by
  induction l with
  | nil => simp at h
  | cons x xs ih =>
      rcases List.mem_cons.mp h with e | e
      · subst e; exact le_max_left _ _
      · exact le_trans (ih e) (le_max_right _ _)

theorem npArgmax_spec (l : List Nat) (h : l ≠ []) :
    npArgmax l < l.length ∧ l.getD (npArgmax l) 0 = listMax l := by
  have hmem := listMax_mem l h
  have hlt : l.indexOf (listMax l) < l.length := List.indexOf_lt_length.mpr hmem
  refine ⟨hlt, ?_⟩
  unfold npArgmax
  rw [List.getD_eq_getElem _ _ hlt]
  exact List.getElem_indexOf hlt

theorem performInterpolation_spec (ts : List (List Int)) (gs : List (Int → Int))
    (h : ts ≠ []) :
    ∃ j, j < ts.length ∧
      (performInterpolation ts gs).1 = ts.getD j [] ∧
      (∀ k, k < ts.length → (ts.getD k []).length ≤ (ts.getD j []).length) ∧
      (performInterpolation ts gs).2.length = gs.length ∧
      ∀ u ∈ (performInterpolation ts gs).2, u.length = (ts.getD j []).length := by
  have hlen : (ts.map List.length) ≠ [] := by simpa using h
  obtain ⟨hjlt, hjmax⟩ := npArgmax_spec (ts.map List.length) hlen
  have hjlt' : npArgmax (ts.map List.length) < ts.length := by simpa using hjlt
  have hgetD : ∀ k, k < ts.length →
      (ts.map List.length).getD k 0 = (ts.getD k []).length := by
    intro k hk
    rw [List.getD_eq_getElem _ _ (by simpa using hk), List.getElem_map,
      List.getD_eq_getElem _ _ hk]
  refine ⟨npArgmax (ts.map List.length), hjlt', rfl, ?_,
    by simp [performInterpolation], ?_⟩
  · intro k hk
    rw [← hgetD k hk, ← hgetD _ hjlt', hjmax]
    apply le_listMax
    rw [List.getD_eq_getElem _ _ (by simpa using hk)]
    exact List.getElem_mem _
  · intro u hu
    simp only [performInterpolation] at hu
    obtain ⟨g, _, rfl⟩ := List.mem_map.mp hu
    simp

theorem finalArrayStep_preserves_nparr (fs0 fs1 fs2 : List String) (d d' : Data)
    (h : finalArrayStep fs0 fs1 fs2 d = .ok d') :
    d'.t = d.t ∧
      ∀ k xs, assocFind d.U k = some (StoredU.nparr xs) →
        assocFind d'.U k = some (StoredU.nparr xs) := by
  unfold finalArrayStep at h
  cases hlf : leakedFeature fs0 fs1 fs2 with
  | none => rw [hlf] at h; simp at h
  | some lf =>
      rw [hlf] at h
      dsimp only at h
      cases hsu : assocFind d.U lf with
      | none => rw [hsu] at h; simp at h
      | some su =>
          rw [hsu] at h
          dsimp only at h
          have hd' : d' = { d with U := odInsert d.U lf (.nparr su.toList) } :=
            (Except.ok.inj h).symm
          subst hd'
          refine ⟨rfl, ?_⟩
          intro k xs hk
          by_cases hkl : k = lf
          · subst hkl
            have hsux : su = .nparr xs := Option.some.inj (hsu.symm.trans hk)
            subst hsux
            simp [assocFind_odInsert_self, StoredU.toList]
          · simp [assocFind_odInsert_ne _ _ _ _ hkl, hk]

/-- **C1.** In an adaptive run, the canonical time basis stored in
`t["directComparison"]` (the only feature the adaptive branch
interpolates) is the native time basis of a node whose native basis is
longest among all nodes — the first such node, as `np.argmax` picks — and
every node's interpolated series stored in the `U["directComparison"]`
matrix has exactly the length of that canonical basis, because each
node's interpolant is evaluated pointwise on the canonical basis.
`bs` lists the nodes' native time bases in node order. -/
theorem claim_C1 (fs0 fs1 fs2 : List String) (solves : List Solve) (d : Data)
    (bs : List (List Int))
    (hdc1 : "directComparison" ∈ fs1)
    (hdc0 : "directComparison" ∉ fs0)
    (hts : solves.map (fun s => (assocFind s "directComparison").bind NodeFeature.t)
      = bs.map some)
    (hint : ∀ s ∈ solves,
      ((assocFind s "directComparison").getD dummyNF).interp.isSome = true)
    (hok : storeResults true fs0 fs1 fs2 solves = .ok d) :
    ∃ j, j < bs.length ∧
      assocFind d.t "directComparison" = some (some (bs.getD j [])) ∧
      (∀ k, k < bs.length → (bs.getD k []).length ≤ (bs.getD j []).length) ∧
      ∃ rows : List (List Int), assocFind d.U "directComparison"
          = some (StoredU.nparr (rows.map PyObj.arr1)) ∧
        rows.length = solves.length ∧
        ∀ r ∈ rows, r.length = (bs.getD j []).length := by
  rw [storeResults_ok_iff] at hok
  obtain ⟨d2, d1, dz, _, h2, h1, hz, hfin⟩ := hok
  obtain ⟨hall, hmap⟩ := map_bind_t_eq "directComparison" solves bs hts
  have hcoll := collectTsInterp_eq "directComparison" solves hall
  have hbs_ne : bs ≠ [] := by
    rintro rfl
    have hsolves : solves = [] := by
      cases solves with
      | nil => rfl
      | cons a b => simp at hts
    subst hsolves
    obtain ⟨p, hp⟩ := storeLoop_ok_val _ _ _ _ _ h1 hdc1
    simp [store1dVal, collectTsInterp, optionsAll] at hp
  obtain ⟨gs, hgs, hgslen⟩ := optionsAll_isSome
    (solves.map (fun s => ((assocFind s "directComparison").getD dummyNF).interp))
    (by
      intro o ho
      obtain ⟨s, hs, rfl⟩ := List.mem_map.mp ho
      exact hint s hs)
  have hts_eq : optionsAll
      (solves.map (fun s => ((assocFind s "directComparison").getD dummyNF).t))
      = some bs := by
    rw [hmap, optionsAll_map_some]
  have hbsE : bs.isEmpty = false := by
    cases bs with
    | nil => exact absurd rfl hbs_ne
    | cons x xs => rfl
  have hval : store1dVal true solves "directComparison" = .ok
      (some (performInterpolation bs gs).1,
       .nparr ((performInterpolation bs gs).2.map PyObj.arr1)) := by
    rw [store1dVal]
    simp only [show (true && ("directComparison" == "directComparison")) = true
      from rfl, if_true]
    rw [hcoll]
    dsimp only
    rw [hts_eq]
    dsimp only
    rw [hgs]
    simp [hbsE]
  have hmem := storeLoop_ok_mem _ _ _ "directComparison" _ _ hval _ h1 hdc1
  have hpres0 := storeLoop_ok_not_mem _ fs0 _ "directComparison" hdc0 _ hz
  obtain ⟨htEq, hUpres⟩ := finalArrayStep_preserves_nparr fs0 fs1 fs2 dz d hfin
  obtain ⟨j, hjlt, hjt, hjmax, hleng, hulen⟩ :=
    performInterpolation_spec bs gs hbs_ne
  refine ⟨j, by simpa using hjlt, ?_, hjmax, (performInterpolation bs gs).2, ?_, ?_, ?_⟩
  · rw [htEq, hpres0.2, hmem.2, hjt]
  · exact hUpres _ _ (by rw [hpres0.1, hmem.1])
  · rw [hleng, hgslen]
    simp
  · exact hulen

/-- Witness for `claim_C1`: an adaptive two-node run where node 0 has
native basis `[0, 1, 2]` (the longest) and node 1 has `[0, 1]`; the
canonical basis is `[0, 1, 2]` and both interpolated rows have length
three. -/
theorem claim_C1_witness :
    ("directComparison" ∈ ["directComparison"]) ∧
      ∃ j, j < [[0, 1, 2], [(0 : Int), 1]].length ∧
        assocFind (Data.t
            { features_0d := [], features_1d := ["directComparison"],
              features_2d := [],
              t := [("directComparison", some [0, 1, 2])],
              U := [("directComparison",
                     StoredU.nparr [PyObj.arr1 [0, 2, 4], PyObj.arr1 [1, 2, 3]])] })
            "directComparison"
          = some (some ([[0, 1, 2], [(0 : Int), 1]].getD j [])) ∧
        (∀ k, k < [[0, 1, 2], [(0 : Int), 1]].length →
          ([[0, 1, 2], [(0 : Int), 1]].getD k []).length ≤
            ([[0, 1, 2], [(0 : Int), 1]].getD j []).length) ∧
        ∃ rows : List (List Int), assocFind (Data.U
            { features_0d := [], features_1d := ["directComparison"],
              features_2d := [],
              t := [("directComparison", some [0, 1, 2])],
              U := [("directComparison",
                     StoredU.nparr [PyObj.arr1 [0, 2, 4], PyObj.arr1 [1, 2, 3]])] })
            "directComparison"
            = some (StoredU.nparr (rows.map PyObj.arr1)) ∧
          rows.length = 2 ∧
          ∀ r ∈ rows, r.length = ([[0, 1, 2], [(0 : Int), 1]].getD j []).length :=
  ⟨by decide,
    claim_C1 [] ["directComparison"] []
      [[("directComparison",
         { t := some [0, 1, 2], u := PyObj.arr1 [9, 9, 9],
           interp := some (fun x => x * 2) : NodeFeature })],
       [("directComparison",
         { t := some [0, 1], u := PyObj.arr1 [8, 8],
           interp := some (fun x => x + 1) : NodeFeature })]]
      { features_0d := [], features_1d := ["directComparison"], features_2d := [],
        t := [("directComparison", some [0, 1, 2])],
        U := [("directComparison",
               StoredU.nparr [PyObj.arr1 [0, 2, 4], PyObj.arr1 [1, 2, 3]])] }
      [[0, 1, 2], [(0 : Int), 1]]
      (by decide) (by decide) (by decide)
      (by
        intro s hs
        rcases List.mem_cons.mp hs with e | e
        · subst e; rfl
        · rcases List.mem_cons.mp e with e' | e'
          · subst e'; rfl
          · simp at e')
      rfl⟩

/-! ## runmodel.py: `evaluateNodes` — worker pool, ordering, graphics -/

/-- Completion events of the worker pool: `sched` lists the node indices
in the order in which workers happen to finish (an arbitrary
interleaving, the degree of parallelism only constrains which `sched`
are possible); each completion carries its node index and that node's
result, computed by the worker function `f`. -/
def workerCompletions {ν ρ : Type} (f : ν → ρ) (sched : List Nat)
    (nodes : List ν) : List (Nat × ρ) :=
  sched.filterMap (fun j => (nodes[j]?).map (fun x => (j, f x)))

/-- `pool.imap` yields results in task-submission order regardless of
completion order: the i-th yielded element is the completion carrying
index i (the pool buffers completions until their turn). -/
def imapGather {ρ : Type} (n : Nat) (comps : List (Nat × ρ)) : List (Option ρ) :=
  (List.range n).map (fun i => (comps.find? (fun p => p.1 == i)).map Prod.snd)

/-- `RunModel.evaluateNodes` (runmodel.py lines 113-136): one task per
grid node, submitted in node order, gathered with `pool.imap` over a pool
of `CPUs` workers.  `f` is the node evaluation worker
(`evaluateNodeFunction` applied to the fixed configuration arguments). -/
def evaluateNodes {ν ρ : Type} (CPUs : Nat) (sched : List Nat) (f : ν → ρ)
    (nodes : List ν) : List (Option ρ) :=
  imapGather nodes.length (workerCompletions f sched nodes)

/-- `RunModel.run` (runmodel.py lines 153-160): reset the store, evaluate
the nodes, then align and store the collected results. -/
def runModel {ν : Type} (adaptive : Bool) (fs0 fs1 fs2 : List String)
    (CPUs : Nat) (sched : List Nat) (f : ν → Solve) (nodes : List ν) :
    Except (RunError × Data) Data :=
  storeResults adaptive fs0 fs1 fs2 ((evaluateNodes CPUs sched f nodes).reduceOption)

theorem find?_workerCompletions {ν ρ : Type} (f : ν → ρ) (nodes : List ν)
    (i : Nat) (x : ν) (hx : nodes[i]? = some x) :
    ∀ sched : List Nat, i ∈ sched →
      (workerCompletions f sched nodes).find? (fun p => p.1 == i)
        = some (i, f x) := by
  intro sched
  induction sched with
  | nil => intro h; simp at h
  | cons j rest ih =>
      intro hmem
      by_cases hj : j = i
      · subst hj
        simp [workerCompletions, List.filterMap_cons, hx, List.find?]
      · have hir : i ∈ rest := by
          rcases List.mem_cons.mp hmem with e | e
          · exact absurd e.symm hj
          · exact e
        simp only [workerCompletions, List.filterMap_cons]
        cases hnj : nodes[j]? with
        | none =>
            simp only [hnj, Option.map_none']
            exact ih hir
        | some y =>
            simp only [hnj, Option.map_some']
            rw [List.find?_cons_of_neg]
            · exact ih hir
            · simp [hj]

theorem evaluateNodes_eq_map {ν ρ : Type} (c : Nat) (sched : List Nat) (f : ν → ρ)
    (nodes : List ν) (h : List.Perm sched (List.range nodes.length)) :
    evaluateNodes c sched f nodes = nodes.map (fun x => some (f x)) := by
  unfold evaluateNodes imapGather
  apply List.ext_getElem
  · simp
  · intro i h1 h2
    have hi : i < nodes.length := by simpa using h2
    have hx : nodes[i]? = some nodes[i] := by
      rw [List.getElem?_eq_getElem hi]
    have hmem : i ∈ sched := h.mem_iff.mpr (by simpa using hi)
    rw [List.getElem_map, List.getElem_map, List.getElem_range,
      find?_workerCompletions f nodes i nodes[i] hx sched hmem]
    rfl

/-- **C4.** The gathered per-node results are in submission (node) order
— the i-th gathered element is the worker's result on the i-th grid node
— and both the gathered results and the aligned results of the full run
are identical for any two pool configurations: any worker counts and any
two completion orders of the tasks.  (`pool.imap` is an order-preserving
gather, so the collected sequence never depends on the degree of
parallelism.) -/
theorem claim_C4 {ν : Type} (f : ν → Solve) (nodes : List ν)
    (sched₁ sched₂ : List Nat) (c₁ c₂ : Nat)
    (adaptive : Bool) (fs0 fs1 fs2 : List String)
    (h₁ : List.Perm sched₁ (List.range nodes.length))
    (h₂ : List.Perm sched₂ (List.range nodes.length)) :
    evaluateNodes c₁ sched₁ f nodes = nodes.map (fun x => some (f x)) ∧
      evaluateNodes c₁ sched₁ f nodes = evaluateNodes c₂ sched₂ f nodes ∧
      runModel adaptive fs0 fs1 fs2 c₁ sched₁ f nodes
        = runModel adaptive fs0 fs1 fs2 c₂ sched₂ f nodes := by
  have e₁ := evaluateNodes_eq_map c₁ sched₁ f nodes h₁
  have e₂ := evaluateNodes_eq_map c₂ sched₂ f nodes h₂
  refine ⟨e₁, e₁.trans e₂.symm, ?_⟩
  unfold runModel
  rw [e₁, e₂]

/-- Witness for `claim_C4`: three nodes, pool sizes 1 and 4, completion
orders `[2, 0, 1]` and `[0, 1, 2]`. -/
theorem claim_C4_witness :
    List.Perm [2, 0, 1] (List.range [10, 20, (30 : Int)].length) ∧
      evaluateNodes 1 [2, 0, 1]
          (fun x : Int => [("v", { t := Option.none, u := PyObj.scalar x,
                                   interp := Option.none : NodeFeature })])
          [10, 20, 30]
        = [10, 20, (30 : Int)].map
            (fun x => some [("v", { t := Option.none, u := PyObj.scalar x,
                                    interp := Option.none : NodeFeature })]) ∧
      evaluateNodes 1 [2, 0, 1]
          (fun x : Int => [("v", { t := Option.none, u := PyObj.scalar x,
                                   interp := Option.none : NodeFeature })])
          [10, 20, 30]
        = evaluateNodes 4 [0, 1, 2]
            (fun x : Int => [("v", { t := Option.none, u := PyObj.scalar x,
                                     interp := Option.none : NodeFeature })])
            [10, 20, 30] ∧
      runModel false ["v"] [] [] 1 [2, 0, 1]
          (fun x : Int => [("v", { t := Option.none, u := PyObj.scalar x,
                                   interp := Option.none : NodeFeature })])
          [10, 20, 30]
        = runModel false ["v"] [] [] 4 [0, 1, 2]
            (fun x : Int => [("v", { t := Option.none, u := PyObj.scalar x,
                                     interp := Option.none : NodeFeature })])
            [10, 20, 30] :=
  ⟨by decide,
    (claim_C4
        (fun x : Int => [("v", { t := Option.none, u := PyObj.scalar x,
                                 interp := Option.none : NodeFeature })])
        [10, 20, 30] [2, 0, 1] [0, 1, 2] 1 4 false ["v"] [] []
        (by decide) (by decide)).1,
    (claim_C4
        (fun x : Int => [("v", { t := Option.none, u := PyObj.scalar x,
                                 interp := Option.none : NodeFeature })])
        [10, 20, 30] [2, 0, 1] [0, 1, 2] 1 4 false ["v"] [] []
        (by decide) (by decide)).2.1,
    (claim_C4
        (fun x : Int => [("v", { t := Option.none, u := PyObj.scalar x,
                                 interp := Option.none : NodeFeature })])
        [10, 20, 30] [2, 0, 1] [0, 1, 2] 1 4 false ["v"] [] []
        (by decide) (by decide)).2.2⟩

/-- Events observable around one `evaluateNodes` batch. -/
inductive BatchEvent
  | displayStart
  | displayStop
  | submit (i : Nat)
  | collect (i : Nat)
deriving DecidableEq

/-- The submit/collect interleaving of the `pool.imap` loop of
`evaluateNodes`: one task per node in node order, each gathered in
turn. -/
def dispatchCollectTrace (n : Nat) : List BatchEvent :=
  (List.range n).flatMap (fun i => [BatchEvent.submit i, BatchEvent.collect i])

/-- Event trace of `RunModel.evaluateNodes` (runmodel.py lines 113-136):
when `supress_model_graphics` is set, the Xvfb virtual display — a
process-wide resource — is started once before the pool is created and
stopped once after the whole batch has been gathered; nothing inside the
dispatch/collect phase touches it. -/
def evaluateNodesTrace (supressGraphics : Bool) (n : Nat) : List BatchEvent :=
  (if supressGraphics then [BatchEvent.displayStart] else []) ++
    dispatchCollectTrace n ++
    (if supressGraphics then [BatchEvent.displayStop] else [])

theorem dispatchCollectTrace_events (n : Nat) :
    ∀ e ∈ dispatchCollectTrace n,
      e ≠ BatchEvent.displayStart ∧ e ≠ BatchEvent.displayStop := by
  intro e he
  simp only [dispatchCollectTrace, List.mem_flatMap] at he
  obtain ⟨i, _, hi⟩ := he
  rcases List.mem_cons.mp hi with h | h
  · subst h; exact ⟨by simp, by simp⟩
  · rcases List.mem_cons.mp h with h' | h'
    · subst h'; exact ⟨by simp, by simp⟩
    · simp at h'

/-- **C8.** For every batch with graphics suppression enabled, the
virtual-display resource is started exactly once, before any task is
submitted, and stopped exactly once, after the whole batch has been
collected: the batch trace is precisely the start event, followed by the
per-node submit/collect events (none of which touch the display),
followed by the stop event. -/
theorem claim_C8 (supress : Bool) (n : Nat) (h : supress = true) :
    evaluateNodesTrace supress n =
        BatchEvent.displayStart ::
          (dispatchCollectTrace n ++ [BatchEvent.displayStop]) ∧
      (evaluateNodesTrace supress n).count BatchEvent.displayStart = 1 ∧
      (evaluateNodesTrace supress n).count BatchEvent.displayStop = 1 ∧
      ∀ e ∈ dispatchCollectTrace n,
        e ≠ BatchEvent.displayStart ∧ e ≠ BatchEvent.displayStop := by
  subst h
  have hmid := dispatchCollectTrace_events n
  have htr : evaluateNodesTrace true n =
      BatchEvent.displayStart ::
        (dispatchCollectTrace n ++ [BatchEvent.displayStop]) := by
    simp [evaluateNodesTrace]
  refine ⟨htr, ?_, ?_, hmid⟩
  · rw [htr]
    rw [List.count_cons_self, List.count_append]
    have h1 : (dispatchCollectTrace n).count BatchEvent.displayStart = 0 :=
      List.count_eq_zero.mpr (fun hc => (hmid _ hc).1 rfl)
    have h2 : ([BatchEvent.displayStop]).count BatchEvent.displayStart = 0 := by
      decide
    rw [h1, h2]
  · rw [htr]
    rw [List.count_cons_of_ne (by simp), List.count_append]
    have h1 : (dispatchCollectTrace n).count BatchEvent.displayStop = 0 :=
      List.count_eq_zero.mpr (fun hc => (hmid _ hc).2 rfl)
    have h2 : ([BatchEvent.displayStop]).count BatchEvent.displayStop = 1 := by
      decide
    rw [h1, h2]

/-- Witness for `claim_C8` at a two-node batch. -/
theorem claim_C8_witness :
    (true = true) ∧
      evaluateNodesTrace true 2 =
          BatchEvent.displayStart ::
            (dispatchCollectTrace 2 ++ [BatchEvent.displayStop]) ∧
        (evaluateNodesTrace true 2).count BatchEvent.displayStart = 1 ∧
        (evaluateNodesTrace true 2).count BatchEvent.displayStop = 1 ∧
        ∀ e ∈ dispatchCollectTrace 2,
          e ≠ BatchEvent.displayStart ∧ e ≠ BatchEvent.displayStop :=
  ⟨rfl, claim_C8 true 2 rfl⟩

end Uncertainpy
